import Mathlib

/-!
Shallow embedding of the Mini-P6 CPM scheduling engine.

The definitions below translate `src/activity.py` (the `Activity`
dataclass) and `src/scheduler.py` (the `CPMScheduler` class) into Lean.
The activity network (a Python dict from id to Activity, which preserves
insertion order) is modelled as a `List Activity`; theorems that need the
dict's key uniqueness take a `Nodup` hypothesis on the id list.
Python ints are modelled as `Int` (durations, validated non-negative at
construction time, as `Nat`).  Python exceptions raised by `schedule()`
are modelled by returning the error value together with the state the
in-place mutations have left behind.
-/

namespace CPM

/-- Mirrors the `Activity` dataclass of `activity.py`: identity and user
fields plus the CPM computed fields (`ES`, `EF`, `LS`, `LF`,
`total_float`, `free_float`, `is_critical`), which default to zero/false. -/
structure Activity where
  id : String
  name : String
  duration : Nat
  predecessors : List String := []
  ES : Int := 0
  EF : Int := 0
  LS : Int := 0
  LF : Int := 0
  total_float : Int := 0
  free_float : Int := 0
  is_critical : Bool := false
deriving DecidableEq, Repr

/-- The single error class `SchedulerError` of `scheduler.py`; the two
distinct messages it is raised with are modelled as two constructors, each
carrying the data interpolated into the Python message string
(`"Activity id references unknown predecessor pid"` names both ids). -/
inductive SchedulerError where
  | unknownPredecessor (actId predId : String)
  | circularDependency
deriving DecidableEq, Repr

/-- State of a `CPMScheduler` object: the activity dict (as an
insertion-ordered list) and the cached `_last_order`. -/
structure CPMScheduler where
  activities : List Activity
  last_order : List String := []
deriving DecidableEq, Repr

/-- Dict lookup `self.activities[aid]` (first list element whose id matches). -/
def findAct (net : List Activity) (aid : String) : Option Activity :=
  net.find? (fun a => a.id == aid)

/-- The key list of the activity dict. -/
def idsOf (net : List Activity) : List String :=
  net.map Activity.id

/-- In-place field update of the activity stored under `aid`. -/
def updateAct (net : List Activity) (aid : String) (f : Activity → Activity) :
    List Activity :=
  net.map (fun a => if a.id == aid then f a else a)

/-- Mirrors `Activity.reset_cpm_fields`: all computed fields back to
zero/false. -/
def reset_cpm_fields (a : Activity) : Activity :=
  { a with ES := 0, EF := 0, LS := 0, LF := 0,
           total_float := 0, free_float := 0, is_critical := false }

/-- Mirrors `CPMScheduler._reset_schedule_fields`. -/
def resetNet (net : List Activity) : List Activity :=
  net.map reset_cpm_fields

/-- Mirrors `CPMScheduler._validate`, which raises on the first
(activity, predecessor) pair whose predecessor id is not a dict key,
scanning activities in dict order and predecessors in list order.
Returns that first offending pair, or `none` when validation passes. -/
def refErrorOf (net : List Activity) : Option (String × String) :=
  net.findSome? (fun a =>
    (a.predecessors.find? (fun p => !(idsOf net).contains p)).map
      (fun p => (a.id, p)))

/-- Successor list of `p` as built by `_topological_sort` and
`_build_successor_map`: scanning activities in dict order, `a.id` is
appended once per occurrence of `p` in `a.predecessors`. -/
def succList (net : List Activity) (p : String) : List String :=
  net.flatMap (fun a => (a.predecessors.filter (fun q => q == p)).map
    (fun _ => a.id))

/-- Python `max` over a nonempty integer list (`0` stands in for the
empty case, which the engine never reaches). -/
def intMaxList : List Int → Int
  | [] => 0
  | x :: xs => xs.foldl max x

/-- Python `min` over a nonempty integer list (`0` stands in for the
empty case, which the engine never reaches). -/
def intMinList : List Int → Int
  | [] => 0
  | x :: xs => xs.foldl min x

/-- Lexicographic comparison of two character lists by Unicode code
point, the order Python string comparison uses.  (Defined structurally so
that the kernel can evaluate it; Mathlib's `String` order is defined by
well-founded recursion and does not reduce.) -/
def charListLe : List Char → List Char → Bool
  | [], _ => true
  | _ :: _, [] => false
  | c :: cs, d :: ds =>
      if c.toNat < d.toNat then true
      else if c.toNat = d.toNat then charListLe cs ds else false

/-- Python string comparison `a <= b` (code-point lexicographic). -/
def strLeb (a b : String) : Bool := charListLe a.data b.data

/-- Propositional form of `strLeb`. -/
def strLe (a b : String) : Prop := strLeb a b = true

instance : DecidableRel strLe := fun a b =>
  inferInstanceAs (Decidable (strLeb a b = true))

/-- Python `sorted` on a list of id strings (stable sort in code-point
lexicographic order). -/
def sortStr (l : List String) : List String :=
  l.insertionSort strLe

/-- The `in_degree` dict of `_topological_sort` as an association list in
dict key order: after the edge-counting loop, `in_degree[aid]` equals the
number of predecessor entries of `aid` (validation guarantees every
counted edge exists). -/
def initialDeg (net : List Activity) : List (String × Int) :=
  net.map (fun a => (a.id, (a.predecessors.length : Int)))

/-- Lookup in the in-degree association list (`0` for an absent key,
which the engine never queries). -/
def degGet (m : List (String × Int)) (k : String) : Int :=
  match m.find? (fun p => p.1 == k) with
  | some p => p.2
  | none => 0

/-- The statement `in_degree[succ] -= 1`. -/
def degDec (m : List (String × Int)) (k : String) : List (String × Int) :=
  m.map (fun p => if p.1 == k then (p.1, p.2 - 1) else p)

/-- Inner loop of Kahn's algorithm: for each successor of the dequeued
node (in sorted order), decrement its in-degree and enqueue it when the
in-degree reaches zero. -/
def stepSuccs : List String → List (String × Int) → List String →
    List (String × Int) × List String
  | [], m, q => (m, q)
  | s :: rest, m, q =>
      let m1 := degDec m s
      let q1 := if degGet m1 s == 0 then q ++ [s] else q
      stepSuccs rest m1 q1

/-- The `while queue:` loop of `_topological_sort`, with explicit fuel.
Each iteration dequeues from the front, appends the node to the output
order and processes its sorted successor list.  The fuel argument only
bounds the iteration count; `kahnFuel` below always suffices (proved via
the measure `queue length + positive in-degree sum`), so the fuel-out
branch is never taken on the states the engine builds. -/
def kahnLoop (succs : String → List String) :
    Nat → List String → List (String × Int) → List String → List String
  | 0, _, _, order => order
  | _ + 1, [], _, order => order
  | fuel + 1, cur :: queue, m, order =>
      let r := stepSuccs (sortStr (succs cur)) m queue
      kahnLoop succs fuel r.2 r.1 (order ++ [cur])

/-- Fuel bound for `kahnLoop`: node count plus total predecessor-entry
count plus one. -/
def kahnFuel (net : List Activity) : Nat :=
  net.length + (net.map (fun a => a.predecessors.length)).sum + 1

/-- The seed queue of `_topological_sort`: ids of in-degree zero, sorted. -/
def initialQueue (net : List Activity) : List String :=
  sortStr (((initialDeg net).filter (fun p => p.2 == 0)).map Prod.fst)

/-- The order list produced by the Kahn loop of `_topological_sort`
(before the cycle check). -/
def kahnOrder (net : List Activity) : List String :=
  kahnLoop (succList net) (kahnFuel net) (initialQueue net) (initialDeg net) []

/-- Early-start value assigned by `_forward_pass`: `0` for an activity
without predecessors, otherwise the maximum predecessor `EF` read from
the current network state. -/
def esCalc (net : List Activity) (a : Activity) : Int :=
  if a.predecessors.isEmpty then 0
  else intMaxList (a.predecessors.map
    (fun p => ((findAct net p).map Activity.EF).getD 0))

/-- The field assignments of one `_forward_pass` iteration. -/
def fwdUpdate (net : List Activity) (a : Activity) : Activity :=
  { a with ES := esCalc net a, EF := esCalc net a + (a.duration : Int) }

/-- One iteration of the `_forward_pass` loop body for activity `aid`. -/
def fwdStep (net : List Activity) (aid : String) : List Activity :=
  updateAct net aid (fwdUpdate net)

/-- Late-finish value assigned by `_backward_pass`: the project finish
for an activity without successors, otherwise the minimum successor `LS`
read from the current network state. -/
def lfCalc (succs : String → List String) (projFinish : Int)
    (net : List Activity) (a : Activity) : Int :=
  if (succs a.id).isEmpty then projFinish
  else intMinList ((succs a.id).map
    (fun s => ((findAct net s).map Activity.LS).getD 0))

/-- The field assignments of one `_backward_pass` iteration. -/
def bwdUpdate (succs : String → List String) (projFinish : Int)
    (net : List Activity) (a : Activity) : Activity :=
  { a with LF := lfCalc succs projFinish net a,
           LS := lfCalc succs projFinish net a - (a.duration : Int) }

/-- One iteration of the `_backward_pass` loop body for activity `aid`. -/
def bwdStep (succs : String → List String) (projFinish : Int)
    (net : List Activity) (aid : String) : List Activity :=
  updateAct net aid (bwdUpdate succs projFinish net)

/-- Free-float value assigned by `_compute_float`: the total float for an
activity without successors, otherwise the minimum successor `ES` minus
the activity's `EF`. -/
def ffCalc (succs : String → List String) (net : List Activity)
    (a : Activity) (tf : Int) : Int :=
  if (succs a.id).isEmpty then tf
  else intMinList ((succs a.id).map
    (fun s => ((findAct net s).map Activity.ES).getD 0)) - a.EF

/-- The field assignments of one `_compute_float` iteration. -/
def floatUpdate (succs : String → List String) (net : List Activity)
    (a : Activity) : Activity :=
  { a with total_float := a.LS - a.ES,
           is_critical := decide (a.LS - a.ES = 0),
           free_float := ffCalc succs net a (a.LS - a.ES) }

/-- One iteration of the `_compute_float` loop body for activity `aid`. -/
def floatStep (succs : String → List String) (net : List Activity)
    (aid : String) : List Activity :=
  updateAct net aid (floatUpdate succs net)

/-- The pipeline `_forward_pass`, `_build_successor_map`,
`_backward_pass`, `_compute_float` run on the validated, reset network
with the given topological order. -/
def runPasses (net : List Activity) (order : List String) : List Activity :=
  let netF := order.foldl fwdStep net
  let succs := succList netF
  let pf := intMaxList (netF.map Activity.EF)
  let netB := order.reverse.foldl (bwdStep succs pf) netF
  (idsOf netB).foldl (floatStep succs) netB

/-- Mirrors `CPMScheduler.schedule`.  The returned pair is the call
outcome (the returned activity list, or the raised error) together with
the scheduler state the call leaves behind: a validation error leaves the
state untouched, a cycle error leaves the computed fields reset (reset
runs before the cycle check) with `_last_order` untouched, and success
stores the full schedule and caches the order. -/
def schedule (s : CPMScheduler) :
    Except SchedulerError (List Activity) × CPMScheduler :=
  if s.activities.isEmpty then (Except.ok [], s)
  else
    match refErrorOf s.activities with
    | some e => (Except.error (SchedulerError.unknownPredecessor e.1 e.2), s)
    | none =>
        let net0 := resetNet s.activities
        let order := kahnOrder net0
        if order.length = net0.length then
          let net1 := runPasses net0 order
          (Except.ok net1, { activities := net1, last_order := order })
        else
          (Except.error SchedulerError.circularDependency,
            { s with activities := net0 })

/-- Mirrors `CPMScheduler.get_critical_path`. -/
def get_critical_path (s : CPMScheduler) : List String :=
  if s.last_order.isEmpty then
    (s.activities.filter (fun a => a.is_critical)).map Activity.id
  else
    s.last_order.filter
      (fun aid => ((findAct s.activities aid).map Activity.is_critical).getD false)

/-- Mirrors `CPMScheduler.project_duration`. -/
def project_duration (s : CPMScheduler) : Int :=
  if s.activities.isEmpty then 0
  else intMaxList (s.activities.map Activity.EF)

/-- Edge relation of the dependency graph: an edge runs from each
predecessor to each activity that lists it. -/
def edgeOf (net : List Activity) (u v : String) : Prop :=
  ∃ a ∈ net, a.id = v ∧ u ∈ a.predecessors

/-- The dependency graph contains a (directed) cycle. -/
def hasCycle (net : List Activity) : Prop :=
  ∃ v, Relation.TransGen (edgeOf net) v v

/-- Referential integrity: every predecessor id named by any activity is
a key of the network. -/
def validNet (net : List Activity) : Prop :=
  ∀ a ∈ net, ∀ p ∈ a.predecessors, p ∈ idsOf net

/-- Boolean success test for a `schedule` outcome. -/
def exceptIsOk : Except SchedulerError (List Activity) → Bool
  | Except.ok _ => true
  | Except.error _ => false

instance (net : List Activity) : Decidable (validNet net) :=
  inferInstanceAs (Decidable (∀ a ∈ net, ∀ p ∈ a.predecessors, p ∈ idsOf net))

instance : DecidableEq (Except SchedulerError (List Activity)) := fun a b =>
  match a, b with
  | Except.ok x, Except.ok y =>
      if h : x = y then Decidable.isTrue (h ▸ rfl)
      else Decidable.isFalse (fun he => h (Except.ok.inj he))
  | Except.ok _, Except.error _ =>
      Decidable.isFalse (fun he => Except.noConfusion he)
  | Except.error _, Except.ok _ =>
      Decidable.isFalse (fun he => Except.noConfusion he)
  | Except.error e, Except.error f =>
      if h : e = f then Decidable.isTrue (h ▸ rfl)
      else Decidable.isFalse (fun he => h (Except.error.inj he))

/-- Predecessor list of the activity stored under `v` (empty for an
absent key). -/
def predsOf (net : List Activity) (v : String) : List String :=
  ((findAct net v).map Activity.predecessors).getD []

/-- Duration (as `Int`) of the activity stored under `v`. -/
def durOf (net : List Activity) (v : String) : Int :=
  ((findAct net v).map (fun a => (a.duration : Int))).getD 0

/-- Early finish of the activity stored under `v`. -/
def efOf (net : List Activity) (v : String) : Int :=
  ((findAct net v).map Activity.EF).getD 0

/-- A complete deterministic topological order of the network: a
permutation of the key list in which every activity appears after all of
its predecessors. -/
structure GoodOrder (net : List Activity) (order : List String) : Prop where
  perm : order.Perm (idsOf net)
  topo : ∀ o1 v o2, order = o1 ++ v :: o2 → ∀ p ∈ predsOf net v, p ∈ o1

/-- The CPM field equations a successfully scheduled network satisfies,
stated on the final network itself (`pf` is the project finish). -/
structure FieldsOk (net : List Activity) (pf : Int) (a : Activity) : Prop where
  es : a.ES = (if a.predecessors.isEmpty then 0
    else intMaxList (a.predecessors.map
      (fun p => ((findAct net p).map Activity.EF).getD 0)))
  ef : a.EF = a.ES + (a.duration : Int)
  lf : a.LF = (if (succList net a.id).isEmpty then pf
    else intMinList ((succList net a.id).map
      (fun s => ((findAct net s).map Activity.LS).getD 0)))
  ls : a.LS = a.LF - (a.duration : Int)
  tf : a.total_float = a.LS - a.ES
  crit : a.is_critical = decide (a.total_float = 0)
  ff : a.free_float = (if (succList net a.id).isEmpty then a.total_float
    else intMinList ((succList net a.id).map
      (fun s => ((findAct net s).map Activity.ES).getD 0)) - a.EF)

/-- Total duration along a list of activity ids. -/
def sumDur (net : List Activity) (path : List String) : Int :=
  (path.map (fun v => durOf net v)).sum

/-- The skeleton of a network: the information (list order, ids,
predecessor lists) that the graph-shaped helpers depend on.  All four
mutation passes preserve it. -/
def skel (net : List Activity) : List (String × List String) :=
  net.map (fun a => (a.id, a.predecessors))

/-- Sum of the positive parts of the in-degree map; together with the
queue length it is the strictly decreasing measure of the Kahn loop. -/
def posSum (m : List (String × Int)) : Nat :=
  (m.map (fun p => p.2.toNat)).sum

/-- Invariant of the Kahn loop of `_topological_sort`, relating the
in-degree map `m`, the pending queue `q` and the emitted order `o`:
the map's keys are the network's keys; each in-degree counts the
predecessor entries not yet emitted; emitted and pending ids are distinct
and are keys; pending ids have in-degree zero; every key of in-degree
zero has been emitted or is pending; and every emitted id was emitted
after all of its predecessors. -/
structure KState (net : List Activity) (q : List String)
    (m : List (String × Int)) (o : List String) : Prop where
  keys : m.map Prod.fst = idsOf net
  deg : ∀ v, degGet m v =
    (((predsOf net v).countP (fun p => !o.contains p) : Nat) : Int)
  nodup : (o ++ q).Nodup
  subset : ∀ v ∈ o ++ q, v ∈ idsOf net
  qzero : ∀ v ∈ q, degGet m v = 0
  zeroIn : ∀ v ∈ idsOf net, degGet m v = 0 → v ∈ o ++ q
  topo : ∀ o1 v o2, o = o1 ++ v :: o2 → ∀ p ∈ predsOf net v, p ∈ o1

/-- Helper for building concrete example activities in witnesses. -/
def mkAct (i : String) (d : Nat) (ps : List String) : Activity :=
  { id := i, name := i, duration := d, predecessors := ps }

/-- The five-activity example network of the specification. -/
def exNet : List Activity :=
  [mkAct "A" 2 [], mkAct "B" 4 ["A"], mkAct "C" 6 ["B"], mkAct "D" 3 ["B"],
   mkAct "E" 2 ["C", "D"]]

/-- Scheduler holding the example network. -/
def exS : CPMScheduler := { activities := exNet }

/-- The example network in a different dict insertion order (same
id-to-content mapping). -/
def exNetPerm : List Activity :=
  [mkAct "D" 3 ["B"], mkAct "B" 4 ["A"], mkAct "E" 2 ["C", "D"],
   mkAct "A" 2 [], mkAct "C" 6 ["B"]]

/-- Scheduler holding the permuted example network. -/
def exSPerm : CPMScheduler := { activities := exNetPerm }

/-- A two-activity cyclic network whose computed fields hold the values
a prior successful run (before the cycle was introduced) left behind. -/
def cycNet : List Activity :=
  [{ mkAct "A" 2 ["B"] with
       ES := 0, EF := 2, LS := 0, LF := 2, is_critical := true },
   { mkAct "B" 3 ["A"] with
       ES := 2, EF := 5, LS := 2, LF := 5, is_critical := true }]

/-- Scheduler holding the cyclic network, with the prior run's order. -/
def cycS : CPMScheduler := { activities := cycNet, last_order := ["A", "B"] }

/-- A network whose activity `A` references the missing predecessor `X`,
with nonzero computed fields left over from a prior run. -/
def badNet : List Activity :=
  [{ mkAct "A" 2 ["X"] with
       ES := 1, EF := 3, LS := 1, LF := 3, is_critical := true }]

/-- Scheduler holding the referentially broken network. -/
def badS : CPMScheduler := { activities := badNet, last_order := ["A"] }

/-! Basic lemmas about lookup, update and the helper functions. -/

theorem findAct_id {net : List Activity} {v : String} {a : Activity}
    (h : findAct net v = some a) : a.id = v := by
  have h2 := List.find?_some h
  simpa using h2

theorem findAct_mem {net : List Activity} {v : String} {a : Activity}
    (h : findAct net v = some a) : a ∈ net :=
  List.mem_of_find?_eq_some h

theorem mem_idsOf_iff {net : List Activity} {v : String} :
    v ∈ idsOf net ↔ ∃ a, findAct net v = some a := by
  constructor
  · intro hv
    rcases List.mem_map.mp hv with ⟨a, ha, hid⟩
    have : (findAct net v).isSome := by
      rw [findAct, List.find?_isSome]
      exact ⟨a, ha, by simp [hid]⟩
    rcases Option.isSome_iff_exists.mp this with ⟨b, hb⟩
    exact ⟨b, hb⟩
  · rintro ⟨a, ha⟩
    exact List.mem_map.mpr ⟨a, findAct_mem ha, findAct_id ha⟩

theorem findAct_eq_none_iff {net : List Activity} {v : String} :
    findAct net v = none ↔ v ∉ idsOf net := by
  constructor
  · intro h hv
    rcases mem_idsOf_iff.mp hv with ⟨a, ha⟩
    rw [h] at ha
    cases ha
  · intro hv
    cases hfa : findAct net v with
    | none => rfl
    | some a => exact absurd (mem_idsOf_iff.mpr ⟨a, hfa⟩) hv

theorem findAct_of_mem {net : List Activity} {a : Activity}
    (hnd : (idsOf net).Nodup) (ha : a ∈ net) : findAct net a.id = some a := by
  induction net with
  | nil => cases ha
  | cons b net ih =>
      rcases List.mem_cons.mp ha with rfl | ha2
      · simp [findAct]
      · have hne : b.id ≠ a.id := by
          intro he
          have : a.id ∈ idsOf net := List.mem_map.mpr ⟨a, ha2, rfl⟩
          rw [idsOf, List.map_cons, List.nodup_cons] at hnd
          exact hnd.1 (he ▸ this)
        have ih2 := ih (by
          rw [idsOf, List.map_cons, List.nodup_cons] at hnd
          exact hnd.2) ha2
        simpa [findAct, List.find?_cons, hne] using ih2

theorem findAct_map_of_id {net : List Activity} {g : Activity → Activity}
    (hg : ∀ a ∈ net, (g a).id = a.id) (v : String) :
    findAct (net.map g) v = (findAct net v).map g := by
  induction net with
  | nil => rfl
  | cons a net ih =>
      by_cases hv : a.id = v
      · simp [findAct, List.find?_cons, hg a (by simp), hv]
      · have hga : (g a).id = a.id := hg a (by simp)
        have ih2 := ih (fun b hb => hg b (by simp [hb]))
        simpa [findAct, List.find?_cons, hga, hv] using ih2

theorem idsOf_map_of_id {net : List Activity} {g : Activity → Activity}
    (hg : ∀ a ∈ net, (g a).id = a.id) : idsOf (net.map g) = idsOf net := by
  rw [idsOf, idsOf, List.map_map]
  exact List.map_congr_left (fun a ha => hg a ha)

theorem updateAct_id_pointwise {aid : String} {f : Activity → Activity}
    (hf : ∀ a, (f a).id = a.id) (a : Activity) :
    (if a.id == aid then f a else a).id = a.id := by
  by_cases h : a.id = aid <;> simp [h, hf]

theorem idsOf_updateAct {net : List Activity} {aid : String}
    {f : Activity → Activity} (hf : ∀ a, (f a).id = a.id) :
    idsOf (updateAct net aid f) = idsOf net :=
  idsOf_map_of_id (fun a _ => updateAct_id_pointwise hf a)

theorem findAct_updateAct {net : List Activity} {aid : String}
    {f : Activity → Activity} (hf : ∀ a, (f a).id = a.id) (v : String) :
    findAct (updateAct net aid f) v =
      (findAct net v).map (fun a => if a.id == aid then f a else a) :=
  findAct_map_of_id (fun a _ => updateAct_id_pointwise hf a) v

theorem findAct_updateAct_self {net : List Activity} {aid : String}
    {f : Activity → Activity} (hf : ∀ a, (f a).id = a.id) :
    findAct (updateAct net aid f) aid = (findAct net aid).map f := by
  rw [findAct_updateAct hf]
  cases hfa : findAct net aid with
  | none => rfl
  | some a => simp [findAct_id hfa]

theorem findAct_updateAct_ne {net : List Activity} {aid : String}
    {f : Activity → Activity} (hf : ∀ a, (f a).id = a.id) {v : String}
    (hv : v ≠ aid) :
    findAct (updateAct net aid f) v = findAct net v := by
  rw [findAct_updateAct hf]
  cases hfa : findAct net v with
  | none => rfl
  | some a =>
      have : a.id = v := findAct_id hfa
      simp [this, hv]

theorem reset_cpm_fields_id (a : Activity) : (reset_cpm_fields a).id = a.id := rfl

theorem findAct_resetNet (net : List Activity) (v : String) :
    findAct (resetNet net) v = (findAct net v).map reset_cpm_fields :=
  findAct_map_of_id (g := reset_cpm_fields) (fun _ _ => rfl) v

theorem idsOf_resetNet (net : List Activity) : idsOf (resetNet net) = idsOf net :=
  idsOf_map_of_id (g := reset_cpm_fields) (fun _ _ => rfl)

theorem resetNet_length (net : List Activity) :
    (resetNet net).length = net.length := List.length_map _ _

/-! Lemmas about the integer max/min helpers. -/

theorem foldl_max_mem (x : Int) (xs : List Int) : xs.foldl max x ∈ x :: xs := by
  induction xs generalizing x with
  | nil => simp
  | cons y ys ih =>
      have h := ih (max x y)
      rcases List.mem_cons.mp h with h1 | h1
      · rcases max_choice x y with h2 | h2 <;> rw [List.foldl_cons, h1, h2] <;> simp
      · simp [List.foldl_cons]
        right
        right
        exact h1

theorem le_foldl_max (x : Int) (xs : List Int) :
    ∀ z ∈ x :: xs, z ≤ xs.foldl max x := by
  induction xs generalizing x with
  | nil => intro z hz; simp at hz; simp [hz]
  | cons y ys ih =>
      intro z hz
      rcases List.mem_cons.mp hz with rfl | hz2
      · calc z ≤ max z y := le_max_left _ _
          _ ≤ ys.foldl max (max z y) := ih _ _ (by simp)
      · rcases List.mem_cons.mp hz2 with rfl | hz3
        · calc z ≤ max x z := le_max_right _ _
            _ ≤ ys.foldl max (max x z) := ih _ _ (by simp)
        · exact ih (max x y) z (by simp [hz3])

theorem foldl_min_mem (x : Int) (xs : List Int) : xs.foldl min x ∈ x :: xs := by
  induction xs generalizing x with
  | nil => simp
  | cons y ys ih =>
      have h := ih (min x y)
      rcases List.mem_cons.mp h with h1 | h1
      · rcases min_choice x y with h2 | h2 <;> rw [List.foldl_cons, h1, h2] <;> simp
      · simp [List.foldl_cons]
        right
        right
        exact h1

theorem foldl_min_le (x : Int) (xs : List Int) :
    ∀ z ∈ x :: xs, xs.foldl min x ≤ z := by
  induction xs generalizing x with
  | nil => intro z hz; simp at hz; simp [hz]
  | cons y ys ih =>
      intro z hz
      rcases List.mem_cons.mp hz with rfl | hz2
      · calc ys.foldl min (min z y) ≤ min z y := ih _ _ (by simp)
          _ ≤ z := min_le_left _ _
      · rcases List.mem_cons.mp hz2 with rfl | hz3
        · calc ys.foldl min (min x z) ≤ min x z := ih _ _ (by simp)
            _ ≤ z := min_le_right _ _
        · exact ih (min x y) z (by simp [hz3])

theorem intMaxList_mem {l : List Int} (h : l ≠ []) : intMaxList l ∈ l := by
  cases l with
  | nil => exact absurd rfl h
  | cons x xs => exact foldl_max_mem x xs

theorem le_intMaxList {l : List Int} {x : Int} (h : x ∈ l) : x ≤ intMaxList l := by
  cases l with
  | nil => cases h
  | cons y ys => exact le_foldl_max y ys x h

theorem intMinList_mem {l : List Int} (h : l ≠ []) : intMinList l ∈ l := by
  cases l with
  | nil => exact absurd rfl h
  | cons x xs => exact foldl_min_mem x xs

theorem intMinList_le {l : List Int} {x : Int} (h : x ∈ l) : intMinList l ≤ x := by
  cases l with
  | nil => cases h
  | cons y ys => exact foldl_min_le y ys x h

theorem le_intMinList {l : List Int} {c : Int} (h : l ≠ [])
    (hall : ∀ x ∈ l, c ≤ x) : c ≤ intMinList l :=
  le_trans (hall _ (intMinList_mem h)) (le_refl _)

theorem intMaxList_le {l : List Int} {c : Int} (h : l ≠ [])
    (hall : ∀ x ∈ l, x ≤ c) : intMaxList l ≤ c :=
  hall _ (intMaxList_mem h)

theorem intMinList_perm {l1 l2 : List Int} (h : l1.Perm l2) :
    intMinList l1 = intMinList l2 := by
  cases l1 with
  | nil => rw [← h.nil_eq]
  | cons x xs =>
      have h2 : l2 ≠ [] := by
        intro he
        rw [he] at h
        exact List.cons_ne_nil x xs h.eq_nil
      have hne : (x :: xs) ≠ ([] : List Int) := List.cons_ne_nil x xs
      apply le_antisymm
      · exact intMinList_le (h.mem_iff.mpr (intMinList_mem h2))
      · exact intMinList_le (h.mem_iff.mp (intMinList_mem hne))

theorem intMaxList_perm {l1 l2 : List Int} (h : l1.Perm l2) :
    intMaxList l1 = intMaxList l2 := by
  cases l1 with
  | nil => rw [← h.nil_eq]
  | cons x xs =>
      have h2 : l2 ≠ [] := by
        intro he
        rw [he] at h
        exact List.cons_ne_nil x xs h.eq_nil
      have hne : (x :: xs) ≠ ([] : List Int) := List.cons_ne_nil x xs
      apply le_antisymm
      · exact le_intMaxList (h.mem_iff.mp (intMaxList_mem hne))
      · exact le_intMaxList (h.mem_iff.mpr (intMaxList_mem h2))

theorem intMinList_map_mono {α : Type} {l : List α} {f g : α → Int}
    (h : l ≠ []) (hfg : ∀ x ∈ l, f x ≤ g x) :
    intMinList (l.map f) ≤ intMinList (l.map g) := by
  have hg : l.map g ≠ [] := by simpa using h
  rcases List.mem_map.mp (intMinList_mem hg) with ⟨x, hx, hgx⟩
  calc intMinList (l.map f) ≤ f x := intMinList_le (List.mem_map.mpr ⟨x, hx, rfl⟩)
    _ ≤ g x := hfg x hx
    _ = intMinList (l.map g) := hgx

/-! The code-point order underlying Python string sorting is a total
order; these lemmas let Mathlib's insertion-sort theory apply to it. -/

theorem charToNat_inj {c d : Char} (h : c.toNat = d.toNat) : c = d := by
  have h2 : Char.ofNat c.toNat = Char.ofNat d.toNat := by rw [h]
  rwa [Char.ofNat_toNat, Char.ofNat_toNat] at h2

theorem charListLe_total : ∀ x y : List Char,
    charListLe x y = true ∨ charListLe y x = true
  | [], _ => Or.inl rfl
  | _ :: _, [] => Or.inr rfl
  | c :: cs, d :: ds => by
      rcases Nat.lt_trichotomy c.toNat d.toNat with h | h | h
      · left
        simp [charListLe, h]
      · rcases charListLe_total cs ds with h2 | h2
        · left
          simp [charListLe, h, h2]
        · right
          simp [charListLe, h.symm, h2]
      · right
        simp [charListLe, h]

theorem charListLe_trans : ∀ {x y z : List Char},
    charListLe x y = true → charListLe y z = true → charListLe x z = true
  | [], _, _, _, _ => rfl
  | _ :: _, [], _, h, _ => by simp [charListLe] at h
  | _ :: _, _ :: _, [], _, h => by simp [charListLe] at h
  | c :: cs, d :: ds, e :: es, h1, h2 => by
      simp only [charListLe] at h1 h2 ⊢
      by_cases hce : c.toNat < e.toNat
      · simp [hce]
      · by_cases hcd : c.toNat < d.toNat
        · by_cases hde : d.toNat < e.toNat
          · exact absurd (Nat.lt_trans hcd hde) hce
          · by_cases hde2 : d.toNat = e.toNat
            · exact absurd (hde2 ▸ hcd) hce
            · simp [hde, hde2] at h2
        · by_cases hcd2 : c.toNat = d.toNat
          · by_cases hde : d.toNat < e.toNat
            · exact absurd (hcd2 ▸ hde) hce
            · by_cases hde2 : d.toNat = e.toNat
              · have hce2 : c.toNat = e.toNat := hcd2.trans hde2
                rw [if_neg hce, if_pos hce2]
                rw [if_neg hcd, if_pos hcd2] at h1
                rw [if_neg hde, if_pos hde2] at h2
                exact charListLe_trans h1 h2
              · simp [hde, hde2] at h2
          · simp [hcd, hcd2] at h1

theorem charListLe_antisymm : ∀ {x y : List Char},
    charListLe x y = true → charListLe y x = true → x = y
  | [], [], _, _ => rfl
  | [], _ :: _, _, h => by simp [charListLe] at h
  | _ :: _, [], h, _ => by simp [charListLe] at h
  | c :: cs, d :: ds, h1, h2 => by
      simp only [charListLe] at h1 h2
      by_cases hcd : c.toNat < d.toNat
      · have hdc : ¬ d.toNat < c.toNat := by omega
        have hdc2 : ¬ d.toNat = c.toNat := by omega
        rw [if_neg hdc, if_neg hdc2] at h2
        exact absurd h2 (by simp)
      · by_cases hcd2 : c.toNat = d.toNat
        · rw [if_neg hcd, if_pos hcd2] at h1
          have hdc : ¬ d.toNat < c.toNat := by omega
          rw [if_neg hdc, if_pos hcd2.symm] at h2
          rw [charToNat_inj hcd2, charListLe_antisymm h1 h2]
        · rw [if_neg hcd, if_neg hcd2] at h1
          exact absurd h1 (by simp)

instance : IsTotal String strLe :=
  ⟨fun a b => charListLe_total a.data b.data⟩

instance : IsTrans String strLe :=
  ⟨fun _ _ _ h1 h2 => charListLe_trans h1 h2⟩

instance : IsAntisymm String strLe :=
  ⟨fun _ _ h1 h2 => String.ext (charListLe_antisymm h1 h2)⟩

theorem sortStr_perm (l : List String) : (sortStr l).Perm l :=
  List.perm_insertionSort strLe l

theorem sortStr_sorted (l : List String) : List.Sorted strLe (sortStr l) :=
  List.sorted_insertionSort strLe l

theorem sortStr_eq_of_perm {l1 l2 : List String} (h : l1.Perm l2) :
    sortStr l1 = sortStr l2 :=
  List.eq_of_perm_of_sorted
    ((sortStr_perm l1).trans (h.trans (sortStr_perm l2).symm))
    (sortStr_sorted l1) (sortStr_sorted l2)

theorem mem_sortStr {l : List String} {v : String} :
    v ∈ sortStr l ↔ v ∈ l := (sortStr_perm l).mem_iff

theorem count_sortStr (l : List String) (v : String) :
    (sortStr l).count v = l.count v := (sortStr_perm l).count_eq v

theorem sortStr_nodup {l : List String} (h : l.Nodup) : (sortStr l).Nodup :=
  ((sortStr_perm l).nodup_iff).mpr h

/-! Lemmas about the successor map. -/

theorem succList_subset_ids {net : List Activity} {p v : String}
    (h : v ∈ succList net p) : v ∈ idsOf net := by
  rcases List.mem_flatMap.mp h with ⟨a, ha, hv⟩
  rcases List.mem_map.mp hv with ⟨_, _, rfl⟩
  exact List.mem_map.mpr ⟨a, ha, rfl⟩

theorem mem_succList_iff {net : List Activity} {p v : String} :
    v ∈ succList net p ↔ ∃ a ∈ net, a.id = v ∧ p ∈ a.predecessors := by
  rw [succList, List.mem_flatMap]
  constructor
  · rintro ⟨a, ha, hv⟩
    rcases List.mem_map.mp hv with ⟨q, hq, rfl⟩
    have hmf := List.mem_filter.mp hq
    have hqp : q = p := by simpa using hmf.2
    exact ⟨a, ha, rfl, hqp ▸ hmf.1⟩
  · rintro ⟨a, ha, rfl, hp⟩
    exact ⟨a, ha, List.mem_map.mpr
      ⟨p, List.mem_filter.mpr ⟨hp, by simp⟩, rfl⟩⟩

theorem edgeOf_iff_mem_succList {net : List Activity} {u v : String} :
    edgeOf net u v ↔ v ∈ succList net u := by
  rw [mem_succList_iff, edgeOf]

theorem count_map_const {α : Type} (l : List α) (c v : String) :
    (l.map (fun _ => c)).count v = if c = v then l.length else 0 := by
  induction l with
  | nil => simp
  | cons x xs ih =>
      by_cases h : c = v
      · subst h
        simp [List.count_cons, ih, List.count_replicate]
      · simp [List.count_cons, ih, h, Ne.symm h, List.count_replicate]

theorem count_succList {net : List Activity} (hnd : (idsOf net).Nodup)
    (p v : String) : (succList net p).count v = (predsOf net v).count p := by
  induction net with
  | nil => simp [succList, predsOf, findAct]
  | cons a net ih =>
      have hnd2 : (idsOf net).Nodup := by
        rw [idsOf, List.map_cons, List.nodup_cons] at hnd
        exact hnd.2
      have hcount := ih hnd2
      rw [succList, List.flatMap_cons, List.count_append, count_map_const]
      by_cases hv : a.id = v
      · have hnotmem : v ∉ idsOf net := by
          rw [idsOf, List.map_cons, List.nodup_cons] at hnd
          exact hv ▸ hnd.1
        have hz : (succList net p).count v = 0 := by
          rw [List.count_eq_zero]
          exact fun hmem => hnotmem (succList_subset_ids hmem)
        rw [show (net.flatMap fun a =>
            (a.predecessors.filter (fun q => q == p)).map (fun _ => a.id)) =
            succList net p from rfl, hz, if_pos hv]
        have hfind : findAct (a :: net) v = some a := by
          simp [findAct, List.find?_cons, hv]
        rw [predsOf, hfind]
        simp [List.count, List.countP_eq_length_filter]
      · rw [show (net.flatMap fun a =>
            (a.predecessors.filter (fun q => q == p)).map (fun _ => a.id)) =
            succList net p from rfl, if_neg hv, hcount]
        have hfind : findAct (a :: net) v = findAct net v := by
          simp [findAct, List.find?_cons, hv]
        rw [predsOf, predsOf, hfind]
        omega

theorem succList_congr {net1 net2 : List Activity} (h : skel net1 = skel net2)
    (p : String) : succList net1 p = succList net2 p := by
  induction net1 generalizing net2 with
  | nil =>
      cases net2 with
      | nil => rfl
      | cons b l2 => simp [skel] at h
  | cons a l1 ih =>
      cases net2 with
      | nil => simp [skel] at h
      | cons b l2 =>
          simp only [skel, List.map_cons, List.cons.injEq, Prod.mk.injEq] at h
          rw [succList, succList, List.flatMap_cons, List.flatMap_cons]
          rw [show (l1.flatMap fun a =>
              (a.predecessors.filter (fun q => q == p)).map (fun _ => a.id)) =
              succList l1 p from rfl,
            show (l2.flatMap fun a =>
              (a.predecessors.filter (fun q => q == p)).map (fun _ => a.id)) =
              succList l2 p from rfl,
            ih h.2, h.1.1, h.1.2]

theorem predsOf_congr {net1 net2 : List Activity} (h : skel net1 = skel net2)
    (v : String) : predsOf net1 v = predsOf net2 v := by
  induction net1 generalizing net2 with
  | nil =>
      cases net2 with
      | nil => rfl
      | cons b l2 => simp [skel] at h
  | cons a l1 ih =>
      cases net2 with
      | nil => simp [skel] at h
      | cons b l2 =>
          simp only [skel, List.map_cons, List.cons.injEq, Prod.mk.injEq] at h
          by_cases hv : a.id = v
          · have hb : b.id = v := h.1.1 ▸ hv
            simp [predsOf, findAct, List.find?_cons, hv, hb, h.1.2]
          · have hb : b.id ≠ v := h.1.1 ▸ hv
            have := ih h.2
            simpa [predsOf, findAct, List.find?_cons, hv, hb] using this

theorem idsOf_congr {net1 net2 : List Activity} (h : skel net1 = skel net2) :
    idsOf net1 = idsOf net2 := by
  have h2 := congrArg (List.map Prod.fst) h
  simpa [skel, List.map_map, idsOf, Function.comp] using h2

theorem edgeOf_congr {net1 net2 : List Activity} (h : skel net1 = skel net2)
    (u v : String) : edgeOf net1 u v ↔ edgeOf net2 u v := by
  rw [edgeOf_iff_mem_succList, edgeOf_iff_mem_succList, succList_congr h]

theorem hasCycle_congr {net1 net2 : List Activity} (h : skel net1 = skel net2) :
    hasCycle net1 ↔ hasCycle net2 := by
  have he : edgeOf net1 = edgeOf net2 := by
    funext u v
    exact propext (edgeOf_congr h u v)
  rw [hasCycle, hasCycle, he]

theorem skel_resetNet (net : List Activity) : skel (resetNet net) = skel net := by
  rw [skel, resetNet, List.map_map]
  rfl

theorem skel_updateAct {net : List Activity} {aid : String}
    {f : Activity → Activity}
    (hf : ∀ a, (f a).id = a.id ∧ (f a).predecessors = a.predecessors) :
    skel (updateAct net aid f) = skel net := by
  rw [skel, updateAct, List.map_map]
  apply List.map_congr_left
  intro a _
  by_cases h : a.id = aid <;> simp [h, (hf a).1, (hf a).2]

/-! Generic lemmas about the per-activity passes.  Each pass is a left
fold of steps of the form `updateAct net aid (F net)` over a list of ids,
so an id not in the list keeps its activity record, an id's final record
is produced by its own step, and any field a pass never writes is
preserved throughout. -/

theorem findAct_updateAct_proj {β : Type} {net : List Activity} {aid : String}
    {f : Activity → Activity} {g : Activity → β}
    (hf : ∀ a, (f a).id = a.id) (hg : ∀ a, g (f a) = g a) (v : String) :
    ((findAct (updateAct net aid f) v).map g) = ((findAct net v).map g) := by
  rw [findAct_updateAct hf]
  cases findAct net v with
  | none => rfl
  | some a =>
      simp only [Option.map_some, Option.map_map]
      by_cases h : a.id = aid <;> simp [h, hg]

theorem foldl_findAct_not_mem {step : List Activity → String → List Activity}
    (hstep : ∀ net aid v, v ≠ aid → findAct (step net aid) v = findAct net v)
    {todo : List String} {net : List Activity} {v : String} (hv : v ∉ todo) :
    findAct (todo.foldl step net) v = findAct net v := by
  induction todo generalizing net with
  | nil => rfl
  | cons aid rest ih =>
      rw [List.foldl_cons]
      have hne : v ≠ aid := fun he => hv (he ▸ List.mem_cons_self aid rest)
      rw [ih (fun hr => hv (List.mem_cons_of_mem aid hr)), hstep net aid v hne]

theorem foldl_proj_preserved {β : Type} {g : Activity → β}
    {step : List Activity → String → List Activity}
    (hstep : ∀ net aid v,
      ((findAct (step net aid) v).map g) = ((findAct net v).map g))
    (todo : List String) (net : List Activity) (v : String) :
    ((findAct (todo.foldl step net) v).map g) = ((findAct net v).map g) := by
  induction todo generalizing net with
  | nil => rfl
  | cons aid rest ih =>
      rw [List.foldl_cons, ih, hstep]

theorem foldl_skel_preserved {step : List Activity → String → List Activity}
    (hstep : ∀ net aid, skel (step net aid) = skel net)
    (todo : List String) (net : List Activity) :
    skel (todo.foldl step net) = skel net := by
  induction todo generalizing net with
  | nil => rfl
  | cons aid rest ih =>
      rw [List.foldl_cons, ih, hstep]

theorem foldl_split_of_mem {s : List Activity → String → List Activity}
    {todo t1 t2 : List String} {v : String} (hsplit : todo = t1 ++ v :: t2)
    (net : List Activity) :
    todo.foldl s net = t2.foldl s (s (t1.foldl s net) v) := by
  rw [hsplit, List.foldl_append, List.foldl_cons]

theorem updateAct_map_proj {β : Type} {net : List Activity} {aid : String}
    {f : Activity → Activity} {g : Activity → β}
    (hg : ∀ a, g (f a) = g a) :
    (updateAct net aid f).map g = net.map g := by
  rw [updateAct, List.map_map]
  apply List.map_congr_left
  intro a _
  by_cases h : a.id = aid <;> simp [h, hg]

theorem foldl_map_proj_preserved {β : Type} {proj : Activity → β}
    {step : List Activity → String → List Activity}
    (hstep : ∀ net aid, (step net aid).map proj = net.map proj)
    (todo : List String) (net : List Activity) :
    (todo.foldl step net).map proj = net.map proj := by
  induction todo generalizing net with
  | nil => rfl
  | cons aid rest ih => rw [List.foldl_cons, ih, hstep]

theorem nodup_split {l1 l2 : List String} {v : String}
    (h : (l1 ++ v :: l2).Nodup) :
    v ∉ l1 ∧ v ∉ l2 ∧ ∀ p ∈ l1, p ∉ v :: l2 := by
  rcases List.nodup_append.mp h with ⟨_, hnd2, hdisj⟩
  refine ⟨fun hv => hdisj hv (List.mem_cons_self v l2), ?_, fun p hp => hdisj hp⟩
  exact (List.nodup_cons.mp hnd2).1

theorem pass_findAct_char {F : List Activity → Activity → Activity}
    (hFid : ∀ net a, (F net a).id = a.id)
    {R : Activity → List String}
    (hdep : ∀ net1 net2 a,
      (∀ p ∈ R a, findAct net1 p = findAct net2 p) → F net1 a = F net2 a)
    {todo : List String} (hnd : todo.Nodup) {net0 : List Activity} {v : String}
    (hv : v ∈ todo)
    (hR : ∀ t1 t2, todo = t1 ++ v :: t2 →
      ∀ a, findAct net0 v = some a → ∀ p ∈ R a, p ∈ t1) :
    findAct (todo.foldl (fun n aid => updateAct n aid (F n)) net0) v =
      (findAct net0 v).map
        (F (todo.foldl (fun n aid => updateAct n aid (F n)) net0)) := by
  have hstep_ne : ∀ net aid w, w ≠ aid →
      findAct (updateAct net aid (F net)) w = findAct net w :=
    fun net aid w hw => findAct_updateAct_ne (fun a => hFid net a) hw
  rcases List.append_of_mem hv with ⟨t1, t2, hsplit⟩
  have hndsplit := hsplit ▸ hnd
  rcases nodup_split hndsplit with ⟨hvt1, hvt2, hdisj⟩
  have hfinal_eq := foldl_split_of_mem (s :=
    fun n aid => updateAct n aid (F n)) hsplit net0
  have hmid_v : findAct (t1.foldl (fun n aid => updateAct n aid (F n)) net0) v =
      findAct net0 v := foldl_findAct_not_mem hstep_ne hvt1
  have hfv : findAct (todo.foldl (fun n aid => updateAct n aid (F n)) net0) v =
      (findAct net0 v).map
        (F (t1.foldl (fun n aid => updateAct n aid (F n)) net0)) := by
    rw [hfinal_eq, foldl_findAct_not_mem hstep_ne hvt2,
      findAct_updateAct_self (fun a =>
        hFid (t1.foldl (fun n aid => updateAct n aid (F n)) net0) a), hmid_v]
  rw [hfv]
  cases h0 : findAct net0 v with
  | none => rfl
  | some a =>
      simp only [Option.map_some']
      congr 1
      apply hdep
      intro p hp
      have hpt1 : p ∈ t1 := hR t1 t2 hsplit a h0 p hp
      have hpne : p ≠ v := fun he => hvt1 (he ▸ hpt1)
      have hpnt2 : p ∉ t2 := fun hpt2 =>
        hdisj p hpt1 (List.mem_cons_of_mem v hpt2)
      rw [hfinal_eq, foldl_findAct_not_mem hstep_ne hpnt2, hstep_ne _ _ _ hpne]

theorem pass_findAct_char_proj {F : List Activity → Activity → Activity}
    (hFid : ∀ net a, (F net a).id = a.id)
    {β : Type} {P : Activity → β}
    (hdep : ∀ net1 net2 a,
      (∀ p, ((findAct net1 p).map P) = ((findAct net2 p).map P)) →
      F net1 a = F net2 a)
    (hpres : ∀ net a, P (F net a) = P a)
    {todo : List String} (hnd : todo.Nodup) {net0 : List Activity} {v : String}
    (hv : v ∈ todo) :
    findAct (todo.foldl (fun n aid => updateAct n aid (F n)) net0) v =
      (findAct net0 v).map
        (F (todo.foldl (fun n aid => updateAct n aid (F n)) net0)) := by
  have hstep_ne : ∀ net aid w, w ≠ aid →
      findAct (updateAct net aid (F net)) w = findAct net w :=
    fun net aid w hw => findAct_updateAct_ne (fun a => hFid net a) hw
  have hstep_proj : ∀ net aid w,
      ((findAct (updateAct net aid (F net)) w).map P) =
        ((findAct net w).map P) :=
    fun net aid w =>
      findAct_updateAct_proj (fun a => hFid net a) (fun a => hpres net a) w
  rcases List.append_of_mem hv with ⟨t1, t2, hsplit⟩
  have hndsplit := hsplit ▸ hnd
  rcases nodup_split hndsplit with ⟨hvt1, hvt2, _⟩
  have hfinal_eq := foldl_split_of_mem (s :=
    fun n aid => updateAct n aid (F n)) hsplit net0
  have hmid_v : findAct (t1.foldl (fun n aid => updateAct n aid (F n)) net0) v =
      findAct net0 v := foldl_findAct_not_mem hstep_ne hvt1
  have hfv : findAct (todo.foldl (fun n aid => updateAct n aid (F n)) net0) v =
      (findAct net0 v).map
        (F (t1.foldl (fun n aid => updateAct n aid (F n)) net0)) := by
    rw [hfinal_eq, foldl_findAct_not_mem hstep_ne hvt2,
      findAct_updateAct_self (fun a =>
        hFid (t1.foldl (fun n aid => updateAct n aid (F n)) net0) a), hmid_v]
  rw [hfv]
  cases h0 : findAct net0 v with
  | none => rfl
  | some a =>
      simp only [Option.map_some']
      congr 1
      apply hdep
      intro p
      have h1 : ((findAct (t1.foldl (fun n aid =>
          updateAct n aid (F n)) net0) p).map P) =
          ((findAct net0 p).map P) :=
        foldl_proj_preserved (fun net aid w => hstep_proj net aid w) t1 net0 p
      have h2 : ((findAct (todo.foldl (fun n aid =>
          updateAct n aid (F n)) net0) p).map P) =
          ((findAct net0 p).map P) :=
        foldl_proj_preserved (fun net aid w => hstep_proj net aid w) todo net0 p
      rw [h1, h2]

/-! Lemmas about the in-degree association list of Kahn's algorithm. -/

theorem degGet_not_mem {m : List (String × Int)} {k : String}
    (h : k ∉ m.map Prod.fst) : degGet m k = 0 := by
  have hf : m.find? (fun p => p.1 == k) = none := by
    rw [List.find?_eq_none]
    intro p hp hbeq
    exact h (List.mem_map.mpr ⟨p, hp, by simpa using hbeq⟩)
  simp [degGet, hf]

theorem keys_degDec (m : List (String × Int)) (k : String) :
    (degDec m k).map Prod.fst = m.map Prod.fst := by
  rw [degDec, List.map_map]
  apply List.map_congr_left
  intro p _
  by_cases h : p.1 = k <;> simp [h]

theorem degGet_cons (p : String × Int) (m : List (String × Int)) (w : String) :
    degGet (p :: m) w = if p.1 = w then p.2 else degGet m w := by
  by_cases h : p.1 = w <;> simp [degGet, List.find?_cons, h]

theorem degDec_cons_self {p : String × Int} {m : List (String × Int)}
    {k : String} (h : p.1 = k) :
    degDec (p :: m) k = (p.1, p.2 - 1) :: degDec m k := by
  rw [show degDec (p :: m) k =
    (if p.1 == k then (p.1, p.2 - 1) else p) :: degDec m k from rfl,
    if_pos (by simpa using h)]

theorem degDec_cons_ne {p : String × Int} {m : List (String × Int)}
    {k : String} (h : ¬ p.1 = k) :
    degDec (p :: m) k = p :: degDec m k := by
  rw [show degDec (p :: m) k =
    (if p.1 == k then (p.1, p.2 - 1) else p) :: degDec m k from rfl,
    if_neg (by simpa using h)]

theorem degDec_not_mem {m : List (String × Int)} {k : String}
    (h : k ∉ m.map Prod.fst) : degDec m k = m := by
  have hall : ∀ p ∈ m, (if p.1 == k then (p.1, p.2 - 1) else p) = p := by
    intro p hp
    have hne : p.1 ≠ k := fun he => h (List.mem_map.mpr ⟨p, hp, he⟩)
    simp [hne]
  calc m.map (fun p => if p.1 == k then (p.1, p.2 - 1) else p)
      = m.map id := List.map_congr_left hall
    _ = m := List.map_id m

theorem degGet_degDec_self {m : List (String × Int)} {k : String}
    (h : k ∈ m.map Prod.fst) : degGet (degDec m k) k = degGet m k - 1 := by
  induction m with
  | nil => simp at h
  | cons p m ih =>
      by_cases hp : p.1 = k
      · rw [degDec_cons_self hp, degGet_cons, degGet_cons, if_pos hp, if_pos hp]
      · have hk2 : k ∈ m.map Prod.fst := by
          rcases List.mem_map.mp h with ⟨q, hq, hqk⟩
          rcases List.mem_cons.mp hq with rfl | hq2
          · exact absurd hqk hp
          · exact List.mem_map.mpr ⟨q, hq2, hqk⟩
        rw [degDec_cons_ne hp, degGet_cons, degGet_cons, if_neg hp, if_neg hp]
        exact ih hk2

theorem degGet_degDec_ne {m : List (String × Int)} {k w : String}
    (h : w ≠ k) : degGet (degDec m k) w = degGet m w := by
  induction m with
  | nil => rfl
  | cons p m ih =>
      by_cases hpk : p.1 = k
      · rw [degDec_cons_self hpk, degGet_cons, degGet_cons]
        by_cases hw : p.1 = w
        · exact absurd (hw ▸ hpk) h
        · rw [if_neg hw, if_neg hw]
          exact ih
      · rw [degDec_cons_ne hpk, degGet_cons, degGet_cons]
        by_cases hw : p.1 = w
        · rw [if_pos hw, if_pos hw]
        · rw [if_neg hw, if_neg hw]
          exact ih

theorem posSum_degDec {m : List (String × Int)} {k : String}
    (hnd : (m.map Prod.fst).Nodup) (h : k ∈ m.map Prod.fst) :
    posSum m = posSum (degDec m k) + (if 1 ≤ degGet m k then 1 else 0) := by
  induction m with
  | nil => simp at h
  | cons p m ih =>
      rw [List.map_cons, List.nodup_cons] at hnd
      by_cases hp : p.1 = k
      · have hkm : k ∉ m.map Prod.fst := hp ▸ hnd.1
        have hget : degGet (p :: m) k = p.2 := by
          simp [degGet, List.find?_cons, hp]
        have hstep : degDec (p :: m) k = (p.1, p.2 - 1) :: m := by
          rw [degDec, List.map_cons, if_pos (by simp [hp])]
          congr 1
          exact degDec_not_mem hkm
        rw [hget, hstep, posSum, posSum, List.map_cons, List.map_cons,
          List.sum_cons, List.sum_cons]
        by_cases h1 : (1 : Int) ≤ p.2
        · rw [if_pos h1]; omega
        · rw [if_neg h1]; omega
      · have hk2 : k ∈ m.map Prod.fst := by
          rcases List.mem_map.mp h with ⟨q, hq, hqk⟩
          rcases List.mem_cons.mp hq with rfl | hq2
          · exact absurd hqk hp
          · exact List.mem_map.mpr ⟨q, hq2, hqk⟩
        have hget : degGet (p :: m) k = degGet m k := by
          simp [degGet, List.find?_cons, hp]
        have hstep : degDec (p :: m) k = p :: degDec m k := by
          rw [degDec, List.map_cons, if_neg (by simpa using hp)]
          rfl
        have ih2 := ih hnd.2 hk2
        rw [hget, hstep, posSum, posSum, List.map_cons, List.map_cons,
          List.sum_cons, List.sum_cons]
        rw [posSum, posSum] at ih2
        omega

/-! Lemmas about the inner successor-processing loop of Kahn's
algorithm. -/

theorem stepSuccs_cons (s : String) (rest : List String)
    (m : List (String × Int)) (q : List String) :
    stepSuccs (s :: rest) m q = stepSuccs rest (degDec m s)
      (if degGet (degDec m s) s == 0 then q ++ [s] else q) := rfl

theorem stepSuccs_keys : ∀ (l : List String) (m : List (String × Int))
    (q : List String), (stepSuccs l m q).1.map Prod.fst = m.map Prod.fst
  | [], _, _ => rfl
  | s :: rest, m, q => by
      rw [stepSuccs_cons]
      exact (stepSuccs_keys rest (degDec m s) _).trans (keys_degDec m s)

theorem stepSuccs_deg : ∀ (l : List String) (m : List (String × Int))
    (q : List String), (∀ s ∈ l, s ∈ m.map Prod.fst) → ∀ v,
    degGet (stepSuccs l m q).1 v = degGet m v - (l.count v : Int)
  | [], _, _, _, v => by simp [stepSuccs]
  | s :: rest, m, q, hl, v => by
      have hs : s ∈ m.map Prod.fst := hl s (by simp)
      have hrest : ∀ x ∈ rest, x ∈ (degDec m s).map Prod.fst := by
        intro x hx
        rw [keys_degDec]
        exact hl x (by simp [hx])
      rw [stepSuccs_cons]
      rw [stepSuccs_deg rest (degDec m s) _ hrest v]
      by_cases hv : v = s
      · subst hv
        rw [degGet_degDec_self hs, List.count_cons_self]
        push_cast
        omega
      · rw [degGet_degDec_ne hv, List.count_cons_of_ne hv]

theorem stepSuccs_count : ∀ (l : List String) (m : List (String × Int))
    (q : List String), (∀ s ∈ l, s ∈ m.map Prod.fst) → ∀ v,
    (stepSuccs l m q).2.count v = q.count v +
      (if 1 ≤ degGet m v ∧ degGet m v ≤ (l.count v : Int) then 1 else 0)
  | [], m, q, _, v => by
      have h : ¬ (1 ≤ degGet m v ∧
          degGet m v ≤ ((List.count v ([] : List String) : Nat) : Int)) := by
        simp only [List.count_nil, Nat.cast_zero]
        omega
      rw [show stepSuccs [] m q = (m, q) from rfl, if_neg h]
      rfl
  | s :: rest, m, q, hl, v => by
      have hs : s ∈ m.map Prod.fst := hl s (by simp)
      have hrest : ∀ x ∈ rest, x ∈ (degDec m s).map Prod.fst := by
        intro x hx
        rw [keys_degDec]
        exact hl x (by simp [hx])
      rw [stepSuccs_cons]
      rw [stepSuccs_count rest (degDec m s) _ hrest v]
      by_cases hv : v = s
      · subst hv
        rw [degGet_degDec_self hs, List.count_cons_self]
        by_cases hd1 : degGet m v = 1
        · rw [hd1]
          rw [if_pos (show ((1 : Int) - 1 == 0) = true by decide)]
          rw [List.count_append]
          have hcond1 : ¬ ((1 : Int) ≤ 1 - 1 ∧
              (1 : Int) - 1 ≤ (rest.count v : Int)) := by omega
          have hcond2 : (1 : Int) ≤ 1 ∧
              (1 : Int) ≤ ((rest.count v + 1 : Nat) : Int) := by
            constructor
            · omega
            · push_cast
              omega
          rw [if_neg hcond1, if_pos hcond2]
          simp
        · rw [if_neg (show ¬ ((degGet m v - 1 == 0) = true) by
            simp only [beq_iff_eq]
            omega)]
          have hiff : (1 ≤ degGet m v - 1 ∧
              degGet m v - 1 ≤ (rest.count v : Int)) ↔
              (1 ≤ degGet m v ∧
                degGet m v ≤ ((rest.count v + 1 : Nat) : Int)) := by
            push_cast
            omega
          rw [if_congr hiff rfl rfl]
      · have hq1count : (if degGet (degDec m s) s == 0 then
            q ++ [s] else q).count v = q.count v := by
          by_cases h0 : (degGet (degDec m s) s == 0) = true
          · rw [if_pos h0, List.count_append]
            simp [hv]
          · rw [if_neg h0]
        rw [hq1count, degGet_degDec_ne hv, List.count_cons_of_ne hv]

theorem stepSuccs_measure : ∀ (l : List String) (m : List (String × Int))
    (q : List String), (∀ s ∈ l, s ∈ m.map Prod.fst) →
    (m.map Prod.fst).Nodup →
    posSum (stepSuccs l m q).1 + (stepSuccs l m q).2.length ≤
      posSum m + q.length
  | [], _, _, _, _ => le_refl _
  | s :: rest, m, q, hl, hnd => by
      have hs : s ∈ m.map Prod.fst := hl s (by simp)
      have hrest : ∀ x ∈ rest, x ∈ (degDec m s).map Prod.fst := by
        intro x hx
        rw [keys_degDec]
        exact hl x (by simp [hx])
      have hnd2 : ((degDec m s).map Prod.fst).Nodup := by
        rw [keys_degDec]
        exact hnd
      rw [stepSuccs_cons]
      have ih := stepSuccs_measure rest (degDec m s)
        (if degGet (degDec m s) s == 0 then q ++ [s] else q) hrest hnd2
      have hpos := posSum_degDec hnd hs
      by_cases h0 : (degGet (degDec m s) s == 0) = true
      · have hd1 : degGet m s = 1 := by
          have hself := degGet_degDec_self hs
          have h0eq : degGet (degDec m s) s = 0 := by simpa using h0
          omega
        have hpos1 : posSum m = posSum (degDec m s) + 1 := by
          rw [hpos, hd1, if_pos (show (1 : Int) ≤ 1 by norm_num)]
        rw [if_pos h0] at ih ⊢
        rw [List.length_append] at ih
        simp only [List.length_cons, List.length_nil] at ih
        omega
      · rw [if_neg h0] at ih ⊢
        have hposle : posSum (degDec m s) ≤ posSum m := by
          by_cases h1 : (1 : Int) ≤ degGet m s
          · rw [hpos, if_pos h1]
            omega
          · rw [hpos, if_neg h1]
            omega
        omega

/-! The invariant of the Kahn loop is preserved by one iteration. -/

theorem countP_not_contains_split {l o : List String} {cur : String}
    (hcur : cur ∉ o) :
    l.countP (fun p => !o.contains p) =
      l.count cur + l.countP (fun p => !(o ++ [cur]).contains p) := by
  induction l with
  | nil => simp
  | cons x l ih =>
      rw [List.countP_cons, List.countP_cons]
      by_cases hx : x = cur
      · subst hx
        have h1 : ((!o.contains x) = true) := by simpa using hcur
        have h2 : ¬ ((!(o ++ [x]).contains x) = true) := by simp
        rw [if_pos h1, if_neg h2, List.count_cons_self]
        omega
      · have hco : ((o ++ [cur]).contains x) = (o.contains x) := by
          by_cases hmo : x ∈ o
          · simp [hmo]
          · have hm2 : x ∉ o ++ [cur] := by
              rw [List.mem_append]
              rintro (h | h)
              · exact hmo h
              · exact hx (by simpa using h)
            simp [hmo, hm2]
        rw [hco, List.count_cons_of_ne (fun he => hx he.symm)]
        omega

theorem preds_sub_of_countP_zero {l o : List String}
    (h : ((l.countP (fun p => !o.contains p) : Nat) : Int) = 0) :
    ∀ p ∈ l, p ∈ o := by
  intro p hp
  have hz : l.countP (fun p => !o.contains p) = 0 := by omega
  have := List.countP_eq_zero.mp hz p hp
  simpa using this

theorem append_singleton_eq_split {o o1 o2 : List String} {cur v : String}
    (h : o ++ [cur] = o1 ++ v :: o2) :
    (o1 = o ∧ v = cur ∧ o2 = []) ∨
      (∃ o2', o2 = o2' ++ [cur] ∧ o = o1 ++ v :: o2') := by
  rcases List.eq_nil_or_concat o2 with rfl | ⟨o2', b, rfl⟩
  · have hinj := List.append_inj' h
      (show ([cur] : List String).length = (v :: ([] : List String)).length from rfl)
    have h2 := hinj.2
    simp only [List.cons.injEq, and_true] at h2
    exact Or.inl ⟨hinj.1.symm, h2.symm, rfl⟩
  · rw [List.concat_eq_append] at h
    rw [show o1 ++ v :: (o2' ++ [b]) = (o1 ++ v :: o2') ++ [b] by simp] at h
    have hinj := List.append_inj' h rfl
    have h2 := hinj.2
    simp only [List.cons.injEq, and_true] at h2
    exact Or.inr ⟨o2', by rw [List.concat_eq_append, h2], hinj.1⟩

theorem kstep {net : List Activity} (hnd : (idsOf net).Nodup)
    {cur : String} {q : List String} {m : List (String × Int)}
    {o : List String} (hK : KState net (cur :: q) m o) :
    KState net (stepSuccs (sortStr (succList net cur)) m q).2
      (stepSuccs (sortStr (succList net cur)) m q).1 (o ++ [cur]) := by
  have hl : ∀ s ∈ sortStr (succList net cur), s ∈ m.map Prod.fst := by
    intro s hs
    rw [hK.keys]
    exact succList_subset_ids (mem_sortStr.mp hs)
  rcases nodup_split (hK.nodup) with ⟨hcuro, hcurq, hdisj⟩
  have hcount_l : ∀ v, ((sortStr (succList net cur)).count v) =
      (predsOf net v).count cur := by
    intro v
    rw [count_sortStr, count_succList hnd]
  have hdeg' : ∀ v, degGet (stepSuccs (sortStr (succList net cur)) m q).1 v =
      (((predsOf net v).countP
        (fun p => !(o ++ [cur]).contains p) : Nat) : Int) := by
    intro v
    rw [stepSuccs_deg _ m q hl v, hK.deg v, hcount_l v]
    have hsplit := countP_not_contains_split (l := predsOf net v) hcuro
    omega
  have hqcount := stepSuccs_count (sortStr (succList net cur)) m q hl
  have hdeg_o : ∀ v ∈ o, degGet m v = 0 := by
    intro v hv
    rcases List.append_of_mem hv with ⟨o1, o2, ho⟩
    rw [hK.deg v]
    have hnil : (predsOf net v).countP (fun p => !o.contains p) = 0 := by
      rw [List.countP_eq_zero]
      intro p hp
      have hpo : p ∈ o := by
        rw [ho]
        exact List.mem_append_left _ (hK.topo o1 v o2 ho p hp)
      simp [hpo]
    rw [hnil]
    rfl
  have hdeg_cur : degGet m cur = 0 := hK.qzero cur (List.mem_cons_self cur q)
  refine ⟨?_, hdeg', ?_, ?_, ?_, ?_, ?_⟩
  · rw [stepSuccs_keys]
    exact hK.keys
  · -- nodup
    rw [List.nodup_iff_count_le_one]
    intro v
    have hold := List.nodup_iff_count_le_one.mp hK.nodup v
    rw [List.count_append, List.count_cons] at hold
    rw [List.count_append, List.count_append, hqcount v]
    by_cases hvc : v = cur
    · subst hvc
      have hchi : ¬ (1 ≤ degGet m v ∧
          degGet m v ≤ ((sortStr (succList net v)).count v : Int)) := by
        rw [hdeg_cur]
        omega
      have hold2 : o.count v + (q.count v + 1) ≤ 1 := by
        rw [if_pos (show (v == v) = true by simp)] at hold
        exact hold
      rw [if_neg hchi, List.count_singleton_self]
      omega
    · have hcv : ¬ cur = v := fun he => hvc he.symm
      have hone : List.count v [cur] = 0 := by
        rw [List.count_singleton, if_neg (by simpa using hcv)]
      have hold2 : o.count v + q.count v ≤ 1 := by
        rw [if_neg (by simpa using hcv)] at hold
        omega
      rw [hone]
      by_cases hchi : 1 ≤ degGet m v ∧
          degGet m v ≤ ((sortStr (succList net cur)).count v : Int)
      · have hvno : v ∉ o := fun hv => by
          have := hdeg_o v hv
          omega
        have hvnq : v ∉ q := fun hv => by
          have := hK.qzero v (List.mem_cons_of_mem cur hv)
          omega
        rw [if_pos hchi, List.count_eq_zero.mpr hvno, List.count_eq_zero.mpr hvnq]
      · rw [if_neg hchi]
        omega
  · -- subset
    intro v hv
    rw [List.mem_append, List.mem_append] at hv
    rcases hv with (hv | hv) | hv
    · exact hK.subset v (List.mem_append_left _ hv)
    · have : v = cur := by simpa using hv
      exact this ▸ hK.subset cur (List.mem_append_right _
        (List.mem_cons_self cur q))
    · have hc : 0 < (stepSuccs (sortStr (succList net cur)) m q).2.count v :=
        List.count_pos_iff.mpr hv
      rw [hqcount v] at hc
      by_cases hchi : 1 ≤ degGet m v ∧
          degGet m v ≤ ((sortStr (succList net cur)).count v : Int)
      · have hcl : 0 < (sortStr (succList net cur)).count v := by omega
        have : v ∈ sortStr (succList net cur) := List.count_pos_iff.mp hcl
        exact succList_subset_ids (mem_sortStr.mp this)
      · rw [if_neg hchi] at hc
        have : v ∈ q := List.count_pos_iff.mp (by omega)
        exact hK.subset v (List.mem_append_right _
          (List.mem_cons_of_mem cur this))
  · -- qzero
    intro v hv
    have hc : 0 < (stepSuccs (sortStr (succList net cur)) m q).2.count v :=
      List.count_pos_iff.mpr hv
    rw [hqcount v] at hc
    have hnewdeg := stepSuccs_deg _ m q hl v
    have hnewnonneg : 0 ≤ degGet (stepSuccs (sortStr (succList net cur)) m q).1 v := by
      rw [hdeg' v]
      omega
    by_cases hchi : 1 ≤ degGet m v ∧
        degGet m v ≤ ((sortStr (succList net cur)).count v : Int)
    · omega
    · rw [if_neg hchi] at hc
      have hvq : v ∈ q := List.count_pos_iff.mp (by omega)
      have := hK.qzero v (List.mem_cons_of_mem cur hvq)
      omega
  · -- zeroIn
    intro v hvids h0'
    have hnewdeg := stepSuccs_deg _ m q hl v
    rw [List.mem_append, List.mem_append]
    by_cases hdeg0 : degGet m v = 0
    · have := hK.zeroIn v hvids hdeg0
      rw [List.mem_append, List.mem_cons] at this
      rcases this with hv | hv | hv
      · exact Or.inl (Or.inl hv)
      · exact Or.inl (Or.inr (by simp [hv]))
      · refine Or.inr (List.count_pos_iff.mp ?_)
        rw [hqcount v]
        have : 0 < q.count v := List.count_pos_iff.mpr hv
        omega
    · have hnn : 0 ≤ degGet m v := by
        rw [hK.deg v]
        omega
      have hchi : 1 ≤ degGet m v ∧
          degGet m v ≤ ((sortStr (succList net cur)).count v : Int) := by
        omega
      refine Or.inr (List.count_pos_iff.mp ?_)
      rw [hqcount v, if_pos hchi]
      omega
  · -- topo
    intro o1 v o2 hsplit p hp
    rcases append_singleton_eq_split hsplit with ⟨ho1, hvcur, _⟩ | ⟨o2', _, ho⟩
    · subst hvcur
      have hz : (((predsOf net v).countP
          (fun p => !o.contains p) : Nat) : Int) = 0 := by
        rw [← hK.deg v]
        exact hdeg_cur
      rw [ho1]
      exact preds_sub_of_countP_zero hz p hp
    · exact hK.topo o1 v o2' ho p hp

/-! The Kahn loop preserves the invariant down to an empty queue when
given at least the measure `posSum + queue length` as fuel. -/

theorem kahnLoop_kstate {net : List Activity} (hnd : (idsOf net).Nodup) :
    ∀ (fuel : Nat) (q : List String) (m : List (String × Int))
    (o : List String), KState net q m o → posSum m + q.length ≤ fuel →
    ∃ m', KState net [] m' (kahnLoop (succList net) fuel q m o)
  | 0, q, m, o, hK, hfuel => by
      have hq : q = [] := by
        have : q.length = 0 := by omega
        exact List.length_eq_zero.mp this
      subst hq
      exact ⟨m, hK⟩
  | _ + 1, [], m, _, hK, _ => ⟨m, hK⟩
  | fuel + 1, cur :: q, m, o, hK, hfuel => by
      have hl : ∀ s ∈ sortStr (succList net cur), s ∈ m.map Prod.fst := by
        intro s hs
        rw [hK.keys]
        exact succList_subset_ids (mem_sortStr.mp hs)
      have hkeysnd : (m.map Prod.fst).Nodup := by
        rw [hK.keys]
        exact hnd
      have hmeas := stepSuccs_measure (sortStr (succList net cur)) m q hl hkeysnd
      have hK2 := kstep hnd hK
      rw [show kahnLoop (succList net) (fuel + 1) (cur :: q) m o =
        kahnLoop (succList net) fuel
          (stepSuccs (sortStr (succList net cur)) m q).2
          (stepSuccs (sortStr (succList net cur)) m q).1 (o ++ [cur]) from rfl]
      apply kahnLoop_kstate hnd fuel _ _ _ hK2
      simp only [List.length_cons] at hfuel
      omega

/-! The initial state of `_topological_sort` satisfies the invariant. -/

theorem keys_initialDeg (net : List Activity) :
    (initialDeg net).map Prod.fst = idsOf net := by
  rw [initialDeg, List.map_map]
  rfl

theorem degGet_initialDeg (net : List Activity) (v : String) :
    degGet (initialDeg net) v = ((predsOf net v).length : Int) := by
  induction net with
  | nil => simp [initialDeg, degGet, predsOf, findAct]
  | cons a net ih =>
      rw [show initialDeg (a :: net) =
        (a.id, (a.predecessors.length : Int)) :: initialDeg net from rfl,
        degGet_cons]
      by_cases hv : a.id = v
      · rw [if_pos hv, predsOf, show findAct (a :: net) v = some a from by
          simp [findAct, List.find?_cons, hv]]
        rfl
      · rw [if_neg hv, ih, predsOf, predsOf,
          show findAct (a :: net) v = findAct net v from by
            simp [findAct, List.find?_cons, hv]]

theorem posSum_initialDeg (net : List Activity) :
    posSum (initialDeg net) = (net.map (fun a => a.predecessors.length)).sum := by
  rw [posSum, initialDeg, List.map_map]
  rfl

theorem initialQueue_sub (net : List Activity) :
    ∀ v ∈ initialQueue net, v ∈ idsOf net := by
  intro v hv
  rcases List.mem_map.mp (mem_sortStr.mp hv) with ⟨pr, hpr, hfst⟩
  have hprd := (List.mem_filter.mp hpr).1
  rw [← keys_initialDeg net]
  exact List.mem_map.mpr ⟨pr, hprd, hfst⟩

theorem initialQueue_nodup {net : List Activity} (hnd : (idsOf net).Nodup) :
    (initialQueue net).Nodup := by
  apply sortStr_nodup
  have hsub : ((initialDeg net).filter (fun p => p.2 == 0)).map Prod.fst |>.Sublist
      ((initialDeg net).map Prod.fst) :=
    (List.filter_sublist _).map Prod.fst
  rw [keys_initialDeg net] at hsub
  exact hnd.sublist hsub

theorem initialQueue_zero {net : List Activity} (hnd : (idsOf net).Nodup) :
    ∀ v ∈ initialQueue net, degGet (initialDeg net) v = 0 := by
  intro v hv
  rcases List.mem_map.mp (mem_sortStr.mp hv) with ⟨pr, hpr, hfst⟩
  rcases List.mem_filter.mp hpr with ⟨hprm, hpr0⟩
  rcases List.mem_map.mp hprm with ⟨a, ha, hpra⟩
  have hid : a.id = v := by rw [← hfst, ← hpra]
  have hlen : (a.predecessors.length : Int) = 0 := by
    have h2 : pr.2 = 0 := by simpa using hpr0
    rw [← hpra] at h2
    simpa using h2
  have hfind : findAct net v = some a := hid ▸ findAct_of_mem hnd ha
  rw [degGet_initialDeg net v, predsOf, hfind]
  simpa using hlen

theorem initial_kstate {net : List Activity} (hnd : (idsOf net).Nodup) :
    KState net (initialQueue net) (initialDeg net) [] := by
  refine ⟨keys_initialDeg net, ?_, ?_, ?_, initialQueue_zero hnd, ?_, ?_⟩
  · intro v
    rw [degGet_initialDeg net v]
    have hcp : (predsOf net v).countP
        (fun p => !([] : List String).contains p) =
        (predsOf net v).length := by
      rw [show (fun p => !([] : List String).contains p) =
        (fun _ : String => true) from by funext p; rfl]
      exact congrFun List.countP_true (predsOf net v)
    rw [hcp]
  · simpa using initialQueue_nodup hnd
  · intro v hv
    simp only [List.nil_append] at hv
    exact initialQueue_sub net v hv
  · intro v hvids h0
    simp only [List.nil_append]
    rcases mem_idsOf_iff.mp hvids with ⟨a, ha⟩
    have hmem : a ∈ net := findAct_mem ha
    have hid : a.id = v := findAct_id ha
    have hlen0 : ((a.predecessors.length : Int)) = 0 := by
      rw [degGet_initialDeg net v, predsOf, ha] at h0
      simpa using h0
    rw [initialQueue, mem_sortStr]
    apply List.mem_map.mpr
    refine ⟨(a.id, (a.predecessors.length : Int)), ?_, hid⟩
    apply List.mem_filter.mpr
    constructor
    · exact List.mem_map.mpr ⟨a, hmem, rfl⟩
    · simpa using hlen0
  · intro o1 v o2 h
    exact absurd h (by simp)

/-! End-state facts about the order produced by the Kahn loop. -/

theorem kahnOrder_facts {net : List Activity} (hnd : (idsOf net).Nodup) :
    (kahnOrder net).Nodup ∧ (∀ v ∈ kahnOrder net, v ∈ idsOf net) ∧
    (∀ o1 v o2, kahnOrder net = o1 ++ v :: o2 →
      ∀ p ∈ predsOf net v, p ∈ o1) ∧
    (∀ v ∈ idsOf net, (∀ p ∈ predsOf net v, p ∈ kahnOrder net) →
      v ∈ kahnOrder net) := by
  have hmeas : posSum (initialDeg net) + (initialQueue net).length ≤
      kahnFuel net := by
    rw [posSum_initialDeg, kahnFuel]
    have hq : (initialQueue net).length ≤ net.length := by
      rw [initialQueue]
      rw [(sortStr_perm _).length_eq, List.length_map]
      calc ((initialDeg net).filter (fun p => p.2 == 0)).length
          ≤ (initialDeg net).length := List.length_filter_le _ _
        _ = net.length := List.length_map _ _
    omega
  obtain ⟨m', hK⟩ := kahnLoop_kstate hnd (kahnFuel net) _ _ _
    (initial_kstate hnd) hmeas
  rw [show kahnLoop (succList net) (kahnFuel net) (initialQueue net)
    (initialDeg net) [] = kahnOrder net from rfl] at hK
  refine ⟨?_, ?_, hK.topo, ?_⟩
  · have hn := hK.nodup
    simpa using hn
  · intro v hv
    exact hK.subset v (by simpa using hv)
  · intro v hvids hall
    have hdeg0 : degGet m' v = 0 := by
      rw [hK.deg v]
      have hz : (predsOf net v).countP
          (fun p => !(kahnOrder net).contains p) = 0 := by
        rw [List.countP_eq_zero]
        intro p hp
        simp [hall p hp]
      rw [hz]
      rfl
    have hin := hK.zeroIn v hvids hdeg0
    simpa using hin

theorem kahnOrder_length_le {net : List Activity}
    (hnd : (idsOf net).Nodup) : (kahnOrder net).length ≤ net.length := by
  obtain ⟨hno, hsub, _, _⟩ := kahnOrder_facts hnd
  have hsp : List.Subperm (kahnOrder net) (idsOf net) := hno.subperm (fun v hv => hsub v hv)
  calc (kahnOrder net).length ≤ (idsOf net).length := hsp.length_le
    _ = net.length := List.length_map _ _

theorem goodOrder_kahn {net : List Activity} (hnd : (idsOf net).Nodup)
    (hlen : (kahnOrder net).length = net.length) :
    GoodOrder net (kahnOrder net) := by
  obtain ⟨hno, hsub, htopo, _⟩ := kahnOrder_facts hnd
  have hsp : List.Subperm (kahnOrder net) (idsOf net) := hno.subperm (fun v hv => hsub v hv)
  refine ⟨hsp.perm_of_length_le ?_, htopo⟩
  rw [idsOf, List.length_map, hlen]

theorem no_cycle_of_goodOrder {net : List Activity} {order : List String}
    (hids : (idsOf net).Nodup) (hGood : GoodOrder net order) :
    ¬ hasCycle net := by
  have hndo : order.Nodup := (hGood.perm.nodup_iff).mpr hids
  have hidx : ∀ u v, edgeOf net u v →
      order.indexOf u < order.indexOf v := by
    intro u v he
    rcases he with ⟨a, ha, haid, hup⟩
    have hv : v ∈ idsOf net := List.mem_map.mpr ⟨a, ha, haid⟩
    have hvo : v ∈ order := hGood.perm.mem_iff.mpr hv
    rcases List.append_of_mem hvo with ⟨o1, o2, hsplit⟩
    have hfind : findAct net v = some a := haid ▸ findAct_of_mem hids ha
    have hpreds : predsOf net v = a.predecessors := by
      rw [predsOf, hfind]
      rfl
    have hu : u ∈ o1 := hGood.topo o1 v o2 hsplit u
      (by rw [hpreds]; exact hup)
    rw [hsplit, List.indexOf_append_of_mem hu,
      List.indexOf_append_of_not_mem (nodup_split (hsplit ▸ hndo)).1,
      List.indexOf_cons_self]
    have hlt : o1.indexOf u < o1.length := List.indexOf_lt_length.mpr hu
    omega
  rintro ⟨v, hcyc⟩
  have hmono : ∀ a b, Relation.TransGen (edgeOf net) a b →
      order.indexOf a < order.indexOf b := by
    intro a b h
    induction h with
    | single h1 => exact hidx _ _ h1
    | tail _ h1 ih => exact lt_trans ih (hidx _ _ h1)
  exact absurd (hmono v v hcyc) (lt_irrefl _)

theorem hasCycle_of_stuck {net : List Activity} {S : List String}
    (hne : S ≠ [])
    (hstep : ∀ v ∈ S, ∃ u, u ∈ S ∧ edgeOf net u v) : hasCycle net := by
  classical
  choose! f hfS hfe using hstep
  obtain ⟨v0, hv0⟩ : ∃ v, v ∈ S := by
    cases S with
    | nil => exact absurd rfl hne
    | cons a l => exact ⟨a, by simp⟩
  have hiter : ∀ n, f^[n] v0 ∈ S := by
    intro n
    induction n with
    | zero => simpa using hv0
    | succ n ih =>
        rw [Function.iterate_succ_apply']
        exact hfS _ ih
  have hedge : ∀ n, edgeOf net (f^[n + 1] v0) (f^[n] v0) := by
    intro n
    rw [Function.iterate_succ_apply']
    exact hfe _ (hiter n)
  have hchain : ∀ d i, Relation.TransGen (edgeOf net)
      (f^[i + d + 1] v0) (f^[i] v0) := by
    intro d
    induction d with
    | zero => exact fun i => Relation.TransGen.single (hedge i)
    | succ d ih =>
        intro i
        exact Relation.TransGen.head (hedge (i + d + 1)) (ih i)
  have hmaps : ∀ i : Fin (S.length + 1), (∀ _ : i ∈ Finset.univ,
      f^[i.val] v0 ∈ S.toFinset) := by
    intro i _
    rw [List.mem_toFinset]
    exact hiter i.val
  have hcard : S.toFinset.card <
      (Finset.univ : Finset (Fin (S.length + 1))).card := by
    rw [Finset.card_univ, Fintype.card_fin]
    exact lt_of_le_of_lt (List.toFinset_card_le S) (Nat.lt_succ_self _)
  obtain ⟨i, _, j, _, hij, heq⟩ :=
    Finset.exists_ne_map_eq_of_card_lt_of_maps_to hcard
      (fun i hi => hmaps i hi)
  have hvalne : i.val ≠ j.val := fun he => hij (Fin.ext he)
  rcases lt_or_gt_of_ne hvalne with hlt | hlt
  · obtain ⟨d, hd⟩ : ∃ d, j.val = i.val + d + 1 :=
      ⟨j.val - i.val - 1, by omega⟩
    refine ⟨f^[j.val] v0, ?_⟩
    have hch := hchain d i.val
    rw [← hd] at hch
    rw [heq] at hch
    exact hch
  · obtain ⟨d, hd⟩ : ∃ d, i.val = j.val + d + 1 :=
      ⟨i.val - j.val - 1, by omega⟩
    refine ⟨f^[i.val] v0, ?_⟩
    have hch := hchain d j.val
    rw [← hd] at hch
    rw [← heq] at hch
    exact hch

theorem kahn_complete_of_acyclic {net : List Activity}
    (hids : (idsOf net).Nodup) (hvalid : validNet net)
    (hnc : ¬ hasCycle net) : ∀ v ∈ idsOf net, v ∈ kahnOrder net := by
  obtain ⟨_, _, _, hclosed⟩ := kahnOrder_facts hids
  by_contra hcon
  push_neg at hcon
  obtain ⟨v, hvid, hvno⟩ := hcon
  have hSmem : v ∈ (idsOf net).filter
      (fun w => !(kahnOrder net).contains w) :=
    List.mem_filter.mpr ⟨hvid, by simpa using hvno⟩
  have hSne : (idsOf net).filter
      (fun w => !(kahnOrder net).contains w) ≠ [] := by
    intro he
    rw [he] at hSmem
    cases hSmem
  apply hnc
  apply hasCycle_of_stuck hSne
  intro w hw
  rcases List.mem_filter.mp hw with ⟨hwid, hwno⟩
  have hwno2 : w ∉ kahnOrder net := by simpa using hwno
  have hnotall : ¬ ∀ p ∈ predsOf net w, p ∈ kahnOrder net :=
    fun hall => hwno2 (hclosed w hwid hall)
  push_neg at hnotall
  obtain ⟨p, hp, hpno⟩ := hnotall
  rcases mem_idsOf_iff.mp hwid with ⟨a, hfa⟩
  have hpreds : predsOf net w = a.predecessors := by
    rw [predsOf, hfa]
    rfl
  have hpid : p ∈ idsOf net := hvalid a (findAct_mem hfa) p
    (by rw [← hpreds]; exact hp)
  refine ⟨p, List.mem_filter.mpr ⟨hpid, by simpa using hpno⟩, ?_⟩
  exact ⟨a, findAct_mem hfa, findAct_id hfa, by rw [← hpreds]; exact hp⟩

theorem kahn_length_iff {net : List Activity} (hids : (idsOf net).Nodup)
    (hvalid : validNet net) :
    (kahnOrder net).length = net.length ↔ ¬ hasCycle net := by
  constructor
  · intro hlen
    exact no_cycle_of_goodOrder hids (goodOrder_kahn hids hlen)
  · intro hnc
    obtain ⟨hno, hsub, _, _⟩ := kahnOrder_facts hids
    have hperm : (kahnOrder net).Perm (idsOf net) := by
      rw [List.perm_ext_iff_of_nodup hno hids]
      exact fun a => ⟨fun h => hsub a h,
        fun h => kahn_complete_of_acyclic hids hvalid hnc a h⟩
    rw [hperm.length_eq, idsOf, List.length_map]

/-! Transport from the reset network to the original one: reset changes
no id, predecessor list or position, so the graph helpers agree. -/

theorem kahnOrder_resetNet (net : List Activity) :
    kahnOrder (resetNet net) = kahnOrder net := by
  have hfuel : kahnFuel (resetNet net) = kahnFuel net := by
    rw [kahnFuel, kahnFuel, resetNet, List.length_map, List.map_map]
    rfl
  have hdeg : initialDeg (resetNet net) = initialDeg net := by
    rw [initialDeg, initialDeg, resetNet, List.map_map]
    rfl
  have hsucc : succList (resetNet net) = succList net := by
    funext p
    exact succList_congr (skel_resetNet net) p
  rw [kahnOrder, kahnOrder, hfuel, hdeg, hsucc, initialQueue, initialQueue,
    hdeg]

theorem validNet_resetNet {net : List Activity} (h : validNet net) :
    validNet (resetNet net) := by
  intro a ha p hp
  rcases List.mem_map.mp ha with ⟨b, hb, rfl⟩
  rw [idsOf_resetNet]
  exact h b hb p hp

/-! Lemmas about validation (`_validate`). -/

theorem refErrorOf_eq_none_iff (net : List Activity) :
    refErrorOf net = none ↔ validNet net := by
  rw [refErrorOf, List.findSome?_eq_none_iff]
  constructor
  · intro h a ha p hp
    have h1 := h a ha
    rw [Option.map_eq_none', List.find?_eq_none] at h1
    have h2 := h1 p hp
    simpa using h2
  · intro h a ha
    rw [Option.map_eq_none', List.find?_eq_none]
    intro p hp
    simp [h a ha p hp]

theorem refErrorOf_some_spec {net : List Activity} {aid pid : String}
    (h : refErrorOf net = some (aid, pid)) :
    ∃ a ∈ net, a.id = aid ∧ pid ∈ a.predecessors ∧ pid ∉ idsOf net := by
  rw [refErrorOf] at h
  rcases List.findSome?_eq_some_iff.mp h with ⟨l1, a, l2, hsplit, hfa, _⟩
  rcases Option.map_eq_some'.mp hfa with ⟨p, hfp, hpair⟩
  have hpa : p ∈ a.predecessors := List.mem_of_find?_eq_some hfp
  have hpno : ¬ ((idsOf net).contains p) = true := by
    have := List.find?_some hfp
    simpa using this
  injection hpair with h1 h2
  refine ⟨a, by rw [hsplit]; simp, h1.symm ▸ rfl, ?_, ?_⟩
  · rw [h2] at hpa
    exact hpa
  · rw [← h2]
    simpa using hpno

theorem refErrorOf_isSome_of_bad {net : List Activity}
    (h : ∃ a ∈ net, ∃ p ∈ a.predecessors, p ∉ idsOf net) :
    ∃ aid pid, refErrorOf net = some (aid, pid) := by
  cases hres : refErrorOf net with
  | none =>
      obtain ⟨a, ha, p, hp, hpno⟩ := h
      exact absurd ((refErrorOf_eq_none_iff net).mp hres a ha p hp) hpno
  | some pr =>
      obtain ⟨x, y⟩ := pr
      exact ⟨x, y, rfl⟩

theorem refErrorOf_some_names {net : List Activity} {aid pid : String}
    (h : refErrorOf net = some (aid, pid)) :
    (∃ a ∈ net, a.id = aid ∧ pid ∈ a.predecessors) ∧ pid ∉ idsOf net := by
  obtain ⟨a, ha, haid, hpa, hpno⟩ := refErrorOf_some_spec h
  exact ⟨⟨a, ha, haid, hpa⟩, hpno⟩

/-! Congruence of the per-activity computations in their network
argument, limited to the lookups they actually perform. -/

theorem esCalc_congr {net1 net2 : List Activity} {a : Activity}
    (h : ∀ p ∈ a.predecessors, findAct net1 p = findAct net2 p) :
    esCalc net1 a = esCalc net2 a := by
  by_cases he : a.predecessors.isEmpty
  · rw [esCalc, esCalc, if_pos he, if_pos he]
  · rw [esCalc, esCalc, if_neg he, if_neg he]
    congr 1
    apply List.map_congr_left
    intro p hp
    rw [h p hp]

theorem lfCalc_congr {succs : String → List String} {pf : Int}
    {net1 net2 : List Activity} {a : Activity}
    (h : ∀ s ∈ succs a.id, findAct net1 s = findAct net2 s) :
    lfCalc succs pf net1 a = lfCalc succs pf net2 a := by
  by_cases he : (succs a.id).isEmpty
  · rw [lfCalc, lfCalc, if_pos he, if_pos he]
  · rw [lfCalc, lfCalc, if_neg he, if_neg he]
    congr 1
    apply List.map_congr_left
    intro s hs
    rw [h s hs]

theorem ffCalc_congr {succs : String → List String}
    {net1 net2 : List Activity} {a : Activity} {tf : Int}
    (h : ∀ p, ((findAct net1 p).map Activity.ES) =
      ((findAct net2 p).map Activity.ES)) :
    ffCalc succs net1 a tf = ffCalc succs net2 a tf := by
  by_cases he : (succs a.id).isEmpty
  · rw [ffCalc, ffCalc, if_pos he, if_pos he]
  · rw [ffCalc, ffCalc, if_neg he, if_neg he]
    congr 2
    apply List.map_congr_left
    intro s _
    rw [h s]

/-! Characterization of each pass at every processed activity. -/

theorem fwdPass_char {net0 : List Activity} {order : List String}
    (hndo : order.Nodup)
    (htopo : ∀ t1 v t2, order = t1 ++ v :: t2 →
      ∀ p ∈ predsOf net0 v, p ∈ t1)
    {v : String} (hv : v ∈ order) :
    findAct (order.foldl fwdStep net0) v = (findAct net0 v).map
      (fwdUpdate (order.foldl fwdStep net0)) := by
  exact pass_findAct_char (F := fwdUpdate)
    (fun _ _ => rfl)
    (R := Activity.predecessors)
    (fun net1 net2 a hdep => by
      rw [fwdUpdate, fwdUpdate, esCalc_congr hdep])
    hndo hv
    (fun t1 t2 hsplit a h0 p hp =>
      htopo t1 v t2 hsplit p (by rw [predsOf, h0]; exact hp))

theorem bwdPass_char {netF : List Activity} {rorder : List String}
    {succs : String → List String} {q : Int} (hndo : rorder.Nodup)
    (hsuccR : ∀ r1 v r2, rorder = r1 ++ v :: r2 →
      ∀ a, findAct netF v = some a → ∀ s ∈ succs a.id, s ∈ r1)
    {v : String} (hv : v ∈ rorder) :
    findAct (rorder.foldl (bwdStep succs q) netF) v = (findAct netF v).map
      (bwdUpdate succs q (rorder.foldl (bwdStep succs q) netF)) := by
  exact pass_findAct_char (F := bwdUpdate succs q)
    (fun _ _ => rfl)
    (R := fun a => succs a.id)
    (fun net1 net2 a hdep => by
      rw [bwdUpdate, bwdUpdate, lfCalc_congr hdep])
    hndo hv (fun t1 t2 hsplit => hsuccR t1 v t2 hsplit)

theorem floatPass_char {N : List Activity} {todo : List String}
    {S : String → List String} (hndo : todo.Nodup)
    {v : String} (hv : v ∈ todo) :
    findAct (todo.foldl (floatStep S) N) v = (findAct N v).map
      (floatUpdate S (todo.foldl (floatStep S) N)) := by
  exact pass_findAct_char_proj (F := floatUpdate S)
    (fun _ _ => rfl)
    (P := Activity.ES)
    (fun net1 net2 a hdep => by
      rw [floatUpdate, floatUpdate, ffCalc_congr hdep])
    (fun _ _ => rfl)
    hndo hv

/-! Field projections each pass leaves untouched. -/

theorem bwd_preserves {succs : String → List String} {pf : Int} {β : Type}
    {P : Activity → β}
    (hp : ∀ net a, P (bwdUpdate succs pf net a) = P a)
    (todo : List String) (netF : List Activity) (v : String) :
    ((findAct (todo.foldl (bwdStep succs pf) netF) v).map P) =
      ((findAct netF v).map P) :=
  foldl_proj_preserved (fun net _ w =>
    findAct_updateAct_proj (f := bwdUpdate succs pf net) (g := P)
      (fun _ => rfl) (fun a => hp net a) w) todo netF v

theorem float_preserves {succs : String → List String} {β : Type}
    {P : Activity → β}
    (hp : ∀ net a, P (floatUpdate succs net a) = P a)
    (todo : List String) (netB : List Activity) (v : String) :
    ((findAct (todo.foldl (floatStep succs) netB) v).map P) =
      ((findAct netB v).map P) :=
  foldl_proj_preserved (fun net _ w =>
    findAct_updateAct_proj (f := floatUpdate succs net) (g := P)
      (fun _ => rfl) (fun a => hp net a) w) todo netB v

theorem bwd_map_proj {succs : String → List String} {pf : Int} {β : Type}
    {P : Activity → β}
    (hp : ∀ net a, P (bwdUpdate succs pf net a) = P a)
    (todo : List String) (netF : List Activity) :
    (todo.foldl (bwdStep succs pf) netF).map P = netF.map P :=
  foldl_map_proj_preserved (fun net _ =>
    updateAct_map_proj (f := bwdUpdate succs pf net) (g := P)
      (fun a => hp net a)) todo netF

theorem float_map_proj {succs : String → List String} {β : Type}
    {P : Activity → β}
    (hp : ∀ net a, P (floatUpdate succs net a) = P a)
    (todo : List String) (netB : List Activity) :
    (todo.foldl (floatStep succs) netB).map P = netB.map P :=
  foldl_map_proj_preserved (fun net _ =>
    updateAct_map_proj (f := floatUpdate succs net) (g := P)
      (fun a => hp net a)) todo netB

theorem fwd_skel (order : List String) (net0 : List Activity) :
    skel (order.foldl fwdStep net0) = skel net0 :=
  foldl_skel_preserved (fun net _ =>
    skel_updateAct (f := fwdUpdate net) (fun _ => ⟨rfl, rfl⟩)) order net0

theorem bwd_skel {succs : String → List String} {pf : Int}
    (todo : List String) (netF : List Activity) :
    skel (todo.foldl (bwdStep succs pf) netF) = skel netF :=
  foldl_skel_preserved (fun net _ =>
    skel_updateAct (f := bwdUpdate succs pf net) (fun _ => ⟨rfl, rfl⟩))
    todo netF

theorem float_skel {succs : String → List String}
    (todo : List String) (netB : List Activity) :
    skel (todo.foldl (floatStep succs) netB) = skel netB :=
  foldl_skel_preserved (fun net _ =>
    skel_updateAct (f := floatUpdate succs net) (fun _ => ⟨rfl, rfl⟩))
    todo netB

/-- In the reversed topological order every activity is preceded by all
of its successors. -/
theorem succs_before_in_reverse {net0 : List Activity} {order : List String}
    (hids : (idsOf net0).Nodup) (hGood : GoodOrder net0 order) :
    ∀ r1 v r2, order.reverse = r1 ++ v :: r2 →
      ∀ s ∈ succList net0 v, s ∈ r1 := by
  intro r1 v r2 h s hs
  have hndo : order.Nodup := (hGood.perm.nodup_iff).mpr hids
  have horder : order = r2.reverse ++ v :: r1.reverse := by
    have h2 := congrArg List.reverse h
    rw [List.reverse_reverse] at h2
    rw [h2, List.reverse_append, List.reverse_cons, List.append_assoc,
      List.singleton_append]
  have hndor : (r2.reverse ++ v :: r1.reverse).Nodup := horder ▸ hndo
  rcases mem_succList_iff.mp hs with ⟨a, ha, haid, hva⟩
  have hsid : s ∈ idsOf net0 := List.mem_map.mpr ⟨a, ha, haid⟩
  have hfind : findAct net0 s = some a := haid ▸ findAct_of_mem hids ha
  have hvpred : v ∈ predsOf net0 s := by
    rw [predsOf, hfind]
    exact hva
  have hso : s ∈ order := hGood.perm.mem_iff.mpr hsid
  rw [horder, List.mem_append, List.mem_cons] at hso
  rcases hso with hso | hso | hso
  · -- s strictly before v in the forward order: contradiction with topo
    rcases List.append_of_mem hso with ⟨x1, x2, hx⟩
    have horder2 : order = x1 ++ s :: (x2 ++ v :: r1.reverse) := by
      rw [horder, hx, List.append_assoc, List.cons_append]
    have hv_in_x1 : v ∈ x1 := hGood.topo x1 s (x2 ++ v :: r1.reverse)
      horder2 v hvpred
    have hnd2 : (x1 ++ s :: (x2 ++ v :: r1.reverse)).Nodup := horder2 ▸ hndo
    rcases nodup_split hnd2 with ⟨_, _, hdisj⟩
    exact absurd (List.mem_cons_of_mem s (List.mem_append_right x2
      (List.mem_cons_self v r1.reverse))) (hdisj v hv_in_x1)
  · -- s = v would be a self-loop, impossible in a nodup topological order
    subst hso
    have hv_in : s ∈ r2.reverse := hGood.topo r2.reverse s r1.reverse
      horder s hvpred
    rcases nodup_split hndor with ⟨hnot, _, _⟩
    exact absurd hv_in hnot
  · exact List.mem_reverse.mp hso

theorem esCalc_congr_proj {net1 net2 : List Activity} {a : Activity}
    (h : ∀ p ∈ a.predecessors, ((findAct net1 p).map Activity.EF) =
      ((findAct net2 p).map Activity.EF)) :
    esCalc net1 a = esCalc net2 a := by
  by_cases he : a.predecessors.isEmpty
  · rw [esCalc, esCalc, if_pos he, if_pos he]
  · rw [esCalc, esCalc, if_neg he, if_neg he]
    congr 1
    apply List.map_congr_left
    intro p hp
    rw [h p hp]

theorem lfCalc_congr_proj {succs : String → List String} {pf : Int}
    {net1 net2 : List Activity} {a : Activity}
    (h : ∀ s ∈ succs a.id, ((findAct net1 s).map Activity.LS) =
      ((findAct net2 s).map Activity.LS)) :
    lfCalc succs pf net1 a = lfCalc succs pf net2 a := by
  by_cases he : (succs a.id).isEmpty
  · rw [lfCalc, lfCalc, if_pos he, if_pos he]
  · rw [lfCalc, lfCalc, if_neg he, if_neg he]
    congr 1
    apply List.map_congr_left
    intro s hs
    rw [h s hs]

theorem lfCalc_ext {succs1 succs2 : String → List String} {pf1 pf2 : Int}
    {net : List Activity} {a1 a2 : Activity} (hs : succs1 = succs2)
    (hp : pf1 = pf2) (hid : a1.id = a2.id) :
    lfCalc succs1 pf1 net a1 = lfCalc succs2 pf2 net a2 := by
  subst hs
  subst hp
  rw [lfCalc, lfCalc, hid]

theorem ffCalc_ext {succs1 succs2 : String → List String}
    {net : List Activity} {a1 a2 : Activity} {tf1 tf2 : Int}
    (hs : succs1 = succs2) (hid : a1.id = a2.id) (hef : a1.EF = a2.EF)
    (htf : tf1 = tf2) :
    ffCalc succs1 net a1 tf1 = ffCalc succs2 net a2 tf2 := by
  subst hs
  subst htf
  rw [ffCalc, ffCalc, hid, hef]

/-- Master characterization of the three passes run by `schedule()` on a
validated, reset network with a complete deterministic topological order:
the final network keeps every activity's identity fields and satisfies
all CPM field equations of `FieldsOk` on itself. -/
theorem runPasses_spec {net0 : List Activity} {order : List String}
    (hids : (idsOf net0).Nodup) (hGood : GoodOrder net0 order) :
    skel (runPasses net0 order) = skel net0 ∧
    ∀ v ∈ idsOf net0, ∀ a0, findAct net0 v = some a0 →
      ∃ a, findAct (runPasses net0 order) v = some a ∧
        a.id = a0.id ∧ a.name = a0.name ∧ a.duration = a0.duration ∧
        a.predecessors = a0.predecessors ∧
        FieldsOk (runPasses net0 order)
          (intMaxList ((runPasses net0 order).map Activity.EF)) a := by
  have hndo : order.Nodup := (hGood.perm.nodup_iff).mpr hids
  set netF := order.foldl fwdStep net0 with hnetF
  set sc := succList netF with hsc2
  set pf := intMaxList (netF.map Activity.EF) with hpf2
  set netB := order.reverse.foldl (bwdStep sc pf) netF with hnetB
  set final := (idsOf netB).foldl (floatStep sc) netB with hfin
  have hrun : runPasses net0 order = final := rfl
  rw [hrun]
  have hskF : skel netF = skel net0 := fwd_skel order net0
  have hskB : skel netB = skel netF := bwd_skel order.reverse netF
  have hskFin : skel final = skel netB := float_skel (idsOf netB) netB
  have hskel : skel final = skel net0 := by rw [hskFin, hskB, hskF]
  have hidsB : idsOf netB = idsOf net0 := idsOf_congr (hskB.trans hskF)
  have hscF : ∀ p, sc p = succList net0 p := fun p => succList_congr hskF p
  have hscfun : sc = succList final := by
    funext p
    rw [hscF p, ← succList_congr hskel p]
  have hEF_BF : ∀ p, ((findAct netB p).map Activity.EF) =
      ((findAct netF p).map Activity.EF) :=
    fun p => bwd_preserves (P := Activity.EF) (fun _ _ => rfl)
      order.reverse netF p
  have hEF_FinB : ∀ p, ((findAct final p).map Activity.EF) =
      ((findAct netB p).map Activity.EF) :=
    fun p => float_preserves (P := Activity.EF) (fun _ _ => rfl)
      (idsOf netB) netB p
  have hEF_FinF : ∀ p, ((findAct final p).map Activity.EF) =
      ((findAct netF p).map Activity.EF) :=
    fun p => (hEF_FinB p).trans (hEF_BF p)
  have hLS_FinB : ∀ p, ((findAct final p).map Activity.LS) =
      ((findAct netB p).map Activity.LS) :=
    fun p => float_preserves (P := Activity.LS) (fun _ _ => rfl)
      (idsOf netB) netB p
  have hmapEF : final.map Activity.EF = netF.map Activity.EF := by
    rw [hfin, float_map_proj (P := Activity.EF) (fun _ _ => rfl), hnetB,
      bwd_map_proj (P := Activity.EF) (fun _ _ => rfl)]
  refine ⟨hskel, ?_⟩
  intro v hvids a0 h0
  have hvorder : v ∈ order := hGood.perm.mem_iff.mpr hvids
  have hF := fwdPass_char hndo hGood.topo hvorder
  rw [h0, Option.map_some'] at hF
  have hvrev : v ∈ order.reverse := List.mem_reverse.mpr hvorder
  have hndorev : order.reverse.Nodup := List.nodup_reverse.mpr hndo
  have hsuccR : ∀ r1 w r2, order.reverse = r1 ++ w :: r2 →
      ∀ a, findAct netF w = some a → ∀ s ∈ sc a.id, s ∈ r1 := by
    intro r1 w r2 hsplit a hfa s hssc
    have haid : a.id = w := findAct_id hfa
    rw [haid, hscF w] at hssc
    exact succs_before_in_reverse hids hGood r1 w r2 hsplit s hssc
  have hB := bwdPass_char (q := pf) hndorev hsuccR hvrev
  rw [hF, Option.map_some'] at hB
  have hndidsB : (idsOf netB).Nodup := by
    rw [hidsB]
    exact hids
  have hvB : v ∈ idsOf netB := by
    rw [hidsB]
    exact hvids
  have hFl := floatPass_char (N := netB) (S := sc) hndidsB hvB
  rw [hB, Option.map_some'] at hFl
  refine ⟨floatUpdate sc final (bwdUpdate sc pf netB (fwdUpdate netF a0)),
    hFl, rfl, rfl, rfl, rfl, ?_⟩
  refine ⟨?_, rfl, ?_, rfl, rfl, rfl, ?_⟩
  · -- ES equation
    show esCalc netF a0 = (if a0.predecessors.isEmpty then 0
      else intMaxList (a0.predecessors.map
        (fun p => ((findAct final p).map Activity.EF).getD 0)))
    have hgoal : (if a0.predecessors.isEmpty then 0
        else intMaxList (a0.predecessors.map
          (fun p => ((findAct final p).map Activity.EF).getD 0))) =
        esCalc final a0 := rfl
    rw [hgoal]
    exact esCalc_congr_proj (fun p _ => (hEF_FinF p).symm)
  · -- LF equation
    show lfCalc sc pf netB (fwdUpdate netF a0) =
      (if (succList final ((floatUpdate sc final (bwdUpdate sc pf netB
          (fwdUpdate netF a0))).id)).isEmpty
        then intMaxList (final.map Activity.EF)
        else intMinList ((succList final ((floatUpdate sc final
          (bwdUpdate sc pf netB (fwdUpdate netF a0))).id)).map
          (fun s => ((findAct final s).map Activity.LS).getD 0)))
    have hgoal : (if (succList final ((floatUpdate sc final (bwdUpdate sc pf
          netB (fwdUpdate netF a0))).id)).isEmpty
        then intMaxList (final.map Activity.EF)
        else intMinList ((succList final ((floatUpdate sc final
          (bwdUpdate sc pf netB (fwdUpdate netF a0))).id)).map
          (fun s => ((findAct final s).map Activity.LS).getD 0))) =
        lfCalc (succList final) (intMaxList (final.map Activity.EF)) final
          (floatUpdate sc final (bwdUpdate sc pf netB
            (fwdUpdate netF a0))) := rfl
    rw [hgoal]
    have h1 : lfCalc sc pf netB (fwdUpdate netF a0) =
        lfCalc sc pf final (fwdUpdate netF a0) :=
      lfCalc_congr_proj (fun s _ => (hLS_FinB s).symm)
    rw [h1]
    apply lfCalc_ext hscfun
    · rw [hpf2, hmapEF]
    · rfl
  · -- free float equation
    show ffCalc sc final (bwdUpdate sc pf netB (fwdUpdate netF a0))
        ((bwdUpdate sc pf netB (fwdUpdate netF a0)).LS -
          (bwdUpdate sc pf netB (fwdUpdate netF a0)).ES) =
      (if (succList final ((floatUpdate sc final (bwdUpdate sc pf netB
          (fwdUpdate netF a0))).id)).isEmpty
        then (floatUpdate sc final (bwdUpdate sc pf netB
          (fwdUpdate netF a0))).total_float
        else intMinList ((succList final ((floatUpdate sc final
          (bwdUpdate sc pf netB (fwdUpdate netF a0))).id)).map
          (fun s => ((findAct final s).map Activity.ES).getD 0)) -
          (floatUpdate sc final (bwdUpdate sc pf netB
            (fwdUpdate netF a0))).EF)
    have hgoal : (if (succList final ((floatUpdate sc final (bwdUpdate sc pf
          netB (fwdUpdate netF a0))).id)).isEmpty
        then (floatUpdate sc final (bwdUpdate sc pf netB
          (fwdUpdate netF a0))).total_float
        else intMinList ((succList final ((floatUpdate sc final
          (bwdUpdate sc pf netB (fwdUpdate netF a0))).id)).map
          (fun s => ((findAct final s).map Activity.ES).getD 0)) -
          (floatUpdate sc final (bwdUpdate sc pf netB
            (fwdUpdate netF a0))).EF) =
        ffCalc (succList final) final (floatUpdate sc final (bwdUpdate sc pf
          netB (fwdUpdate netF a0)))
          ((floatUpdate sc final (bwdUpdate sc pf netB
            (fwdUpdate netF a0))).total_float) := rfl
    rw [hgoal]
    apply ffCalc_ext hscfun rfl rfl rfl

/-! Unfolding the four branches of `schedule()`. -/

theorem schedule_eq_empty {s : CPMScheduler} (h : s.activities = []) :
    schedule s = (Except.ok [], s) := by
  rw [schedule, if_pos (by simp [h])]

theorem schedule_eq_refError {s : CPMScheduler} {aid pid : String}
    (hne : s.activities ≠ [])
    (herr : refErrorOf s.activities = some (aid, pid)) :
    schedule s =
      (Except.error (SchedulerError.unknownPredecessor aid pid), s) := by
  have hemp : ¬ (s.activities.isEmpty = true) := by simpa using hne
  rw [schedule, if_neg hemp, herr]

theorem schedule_eq_cycle {s : CPMScheduler} (hne : s.activities ≠ [])
    (hnone : refErrorOf s.activities = none)
    (hlen : ¬ ((kahnOrder (resetNet s.activities)).length =
      (resetNet s.activities).length)) :
    schedule s = (Except.error SchedulerError.circularDependency,
      { s with activities := resetNet s.activities }) := by
  have hemp : ¬ (s.activities.isEmpty = true) := by simpa using hne
  rw [schedule, if_neg hemp, hnone]
  simp only [if_neg hlen]

theorem schedule_eq_ok {s : CPMScheduler} (hne : s.activities ≠ [])
    (hnone : refErrorOf s.activities = none)
    (hlen : (kahnOrder (resetNet s.activities)).length =
      (resetNet s.activities).length) :
    schedule s = (Except.ok (runPasses (resetNet s.activities)
        (kahnOrder (resetNet s.activities))),
      { activities := runPasses (resetNet s.activities)
          (kahnOrder (resetNet s.activities)),
        last_order := kahnOrder (resetNet s.activities) }) := by
  have hemp : ¬ (s.activities.isEmpty = true) := by simpa using hne
  rw [schedule, if_neg hemp, hnone]
  simp only [if_pos hlen]

theorem goodOrder_congr {net1 net2 : List Activity} {order : List String}
    (hsk : skel net1 = skel net2) (h : GoodOrder net1 order) :
    GoodOrder net2 order := by
  refine ⟨?_, ?_⟩
  · rw [← idsOf_congr hsk]
    exact h.perm
  · intro o1 v o2 hsplit p hp
    rw [← predsOf_congr hsk v] at hp
    exact h.topo o1 v o2 hsplit p hp

/-- On a nonempty network with unique ids, a successful `schedule()` call
yields: the returned state holds the final network; the cached order is a
complete deterministic topological order of it; the skeleton (ids,
positions, predecessor lists) is unchanged; and every activity satisfies
the CPM field equations. -/
theorem schedule_success_full {s : CPMScheduler}
    (hnd : (idsOf s.activities).Nodup) (hne : s.activities ≠ [])
    (hok : exceptIsOk (schedule s).1 = true) :
    (schedule s).1 = Except.ok ((schedule s).2.activities) ∧
    (schedule s).2.last_order = kahnOrder (resetNet s.activities) ∧
    GoodOrder ((schedule s).2.activities) ((schedule s).2.last_order) ∧
    skel ((schedule s).2.activities) = skel s.activities ∧
    ∀ a ∈ (schedule s).2.activities,
      FieldsOk ((schedule s).2.activities)
        (intMaxList (((schedule s).2.activities).map Activity.EF)) a := by
  have hnd0 : (idsOf (resetNet s.activities)).Nodup := by
    rw [idsOf_resetNet]
    exact hnd
  cases herr : refErrorOf s.activities with
  | some pr =>
      obtain ⟨aid, pid⟩ := pr
      rw [schedule_eq_refError hne herr] at hok
      cases hok
  | none =>
      by_cases hlen : (kahnOrder (resetNet s.activities)).length =
          (resetNet s.activities).length
      · have hsch := schedule_eq_ok hne herr hlen
        have hGood0 : GoodOrder (resetNet s.activities)
            (kahnOrder (resetNet s.activities)) := goodOrder_kahn hnd0 hlen
        obtain ⟨hskel0, hmain⟩ := runPasses_spec hnd0 hGood0
        have hsk : skel (runPasses (resetNet s.activities)
            (kahnOrder (resetNet s.activities))) = skel s.activities := by
          rw [hskel0, skel_resetNet]
        rw [hsch]
        refine ⟨rfl, rfl, ?_, hsk, ?_⟩
        · exact goodOrder_congr (by rw [← hskel0]) hGood0
        · intro a ha
          have hndfin : (idsOf (runPasses (resetNet s.activities)
              (kahnOrder (resetNet s.activities)))).Nodup := by
            rw [idsOf_congr hsk]
            exact hnd
          have hfind := findAct_of_mem hndfin ha
          have haid : a.id ∈ idsOf (resetNet s.activities) := by
            rw [idsOf_resetNet, ← idsOf_congr hsk]
            exact List.mem_map.mpr ⟨a, ha, rfl⟩
          rcases mem_idsOf_iff.mp haid with ⟨a0, ha0⟩
          obtain ⟨a', hfind', _, _, _, _, hOk⟩ := hmain a.id haid a0 ha0
          rw [hfind] at hfind'
          injection hfind' with he
          rw [he]
          exact hOk
      · have hsch := schedule_eq_cycle hne herr hlen
        rw [hsch] at hok
        cases hok

/-! Claim theorems. -/

/-- C1: for every network with unique ids, after a successful
`schedule()` call every activity with no predecessors has `ES = 0`,
every activity with predecessors has `ES` equal to the maximum `EF` over
its predecessors, and every activity has `EF = ES + duration`. -/
theorem C1_forward_pass_spec (s : CPMScheduler)
    (hnd : (idsOf s.activities).Nodup)
    (hok : exceptIsOk (schedule s).1 = true) :
    ∀ a ∈ (schedule s).2.activities,
      (a.predecessors = [] → a.ES = 0) ∧
      (a.predecessors ≠ [] → a.ES = intMaxList (a.predecessors.map
        (fun p => ((findAct ((schedule s).2.activities) p).map
          Activity.EF).getD 0))) ∧
      a.EF = a.ES + (a.duration : Int) := by
  by_cases hne : s.activities = []
  · rw [schedule_eq_empty hne]
    intro a ha
    rw [hne] at ha
    cases ha
  · obtain ⟨_, _, _, _, hFOk⟩ := schedule_success_full hnd hne hok
    intro a ha
    have h := hFOk a ha
    refine ⟨?_, ?_, h.ef⟩
    · intro hp
      have hes := h.es
      rw [if_pos (by simp [hp])] at hes
      exact hes
    · intro hp
      have hes := h.es
      rw [if_neg (by simpa using hp)] at hes
      exact hes

/-- Witness for C1 at the five-activity example network. -/
theorem C1_forward_pass_spec_witness :
    (idsOf exS.activities).Nodup ∧ exceptIsOk (schedule exS).1 = true ∧
    ∀ a ∈ (schedule exS).2.activities,
      (a.predecessors = [] → a.ES = 0) ∧
      (a.predecessors ≠ [] → a.ES = intMaxList (a.predecessors.map
        (fun p => ((findAct ((schedule exS).2.activities) p).map
          Activity.EF).getD 0))) ∧
      a.EF = a.ES + (a.duration : Int) :=
  ⟨by decide, by decide, C1_forward_pass_spec exS (by decide) (by decide)⟩

/-- C2: for every network with unique ids, after a successful
`schedule()` call every activity with no successors has `LF` equal to
the project finish (the maximum `EF` over all activities), every
activity with successors has `LF` equal to the minimum `LS` over its
successors, and every activity has `LS = LF - duration`. -/
theorem C2_backward_pass_spec (s : CPMScheduler)
    (hnd : (idsOf s.activities).Nodup)
    (hok : exceptIsOk (schedule s).1 = true) :
    ∀ a ∈ (schedule s).2.activities,
      (succList ((schedule s).2.activities) a.id = [] →
        a.LF = intMaxList (((schedule s).2.activities).map Activity.EF)) ∧
      (succList ((schedule s).2.activities) a.id ≠ [] →
        a.LF = intMinList ((succList ((schedule s).2.activities) a.id).map
          (fun v => ((findAct ((schedule s).2.activities) v).map
            Activity.LS).getD 0))) ∧
      a.LS = a.LF - (a.duration : Int) := by
  by_cases hne : s.activities = []
  · rw [schedule_eq_empty hne]
    intro a ha
    rw [hne] at ha
    cases ha
  · obtain ⟨_, _, _, _, hFOk⟩ := schedule_success_full hnd hne hok
    intro a ha
    have h := hFOk a ha
    refine ⟨?_, ?_, h.ls⟩
    · intro hp
      have hlf := h.lf
      rw [if_pos (by simp [hp])] at hlf
      exact hlf
    · intro hp
      have hlf := h.lf
      rw [if_neg (by simpa using hp)] at hlf
      exact hlf

/-- Witness for C2 at the five-activity example network. -/
theorem C2_backward_pass_spec_witness :
    (idsOf exS.activities).Nodup ∧ exceptIsOk (schedule exS).1 = true ∧
    ∀ a ∈ (schedule exS).2.activities,
      (succList ((schedule exS).2.activities) a.id = [] →
        a.LF = intMaxList (((schedule exS).2.activities).map Activity.EF)) ∧
      (succList ((schedule exS).2.activities) a.id ≠ [] →
        a.LF = intMinList ((succList ((schedule exS).2.activities) a.id).map
          (fun v => ((findAct ((schedule exS).2.activities) v).map
            Activity.LS).getD 0))) ∧
      a.LS = a.LF - (a.duration : Int) :=
  ⟨by decide, by decide, C2_backward_pass_spec exS (by decide) (by decide)⟩

/-- C3: for every network with unique ids, after a successful
`schedule()` call every activity satisfies
`total_float = LS - ES = LF - EF`, and `is_critical` holds exactly when
`total_float = 0`. -/
theorem C3_float_identity_spec (s : CPMScheduler)
    (hnd : (idsOf s.activities).Nodup)
    (hok : exceptIsOk (schedule s).1 = true) :
    ∀ a ∈ (schedule s).2.activities,
      a.total_float = a.LS - a.ES ∧ a.total_float = a.LF - a.EF ∧
      (a.is_critical = true ↔ a.total_float = 0) := by
  by_cases hne : s.activities = []
  · rw [schedule_eq_empty hne]
    intro a ha
    rw [hne] at ha
    cases ha
  · obtain ⟨_, _, _, _, hFOk⟩ := schedule_success_full hnd hne hok
    intro a ha
    have h := hFOk a ha
    refine ⟨h.tf, ?_, ?_⟩
    · have h1 := h.tf
      have h2 := h.ef
      have h3 := h.ls
      omega
    · rw [h.crit]
      exact decide_eq_true_iff

/-- Witness for C3 at the five-activity example network. -/
theorem C3_float_identity_spec_witness :
    (idsOf exS.activities).Nodup ∧ exceptIsOk (schedule exS).1 = true ∧
    ∀ a ∈ (schedule exS).2.activities,
      a.total_float = a.LS - a.ES ∧ a.total_float = a.LF - a.EF ∧
      (a.is_critical = true ↔ a.total_float = 0) :=
  ⟨by decide, by decide, C3_float_identity_spec exS (by decide) (by decide)⟩

/-- C6: when some activity lists a predecessor id absent from the
network, `schedule()` fails with a validation error carrying both the
offending activity id and the missing predecessor id (the data the
Python message interpolates), and the whole scheduler state, computed
fields included, is untouched. -/
theorem C6_ref_error_spec (s : CPMScheduler)
    (hbad : ∃ a ∈ s.activities, ∃ p ∈ a.predecessors,
      p ∉ idsOf s.activities) :
    ∃ aid pid, (schedule s).1 =
      Except.error (SchedulerError.unknownPredecessor aid pid) ∧
      (∃ a ∈ s.activities, a.id = aid ∧ pid ∈ a.predecessors) ∧
      pid ∉ idsOf s.activities ∧
      (schedule s).2 = s := by
  have hne : s.activities ≠ [] := by
    obtain ⟨a, ha, _⟩ := hbad
    intro he
    rw [he] at ha
    cases ha
  obtain ⟨aid, pid, herr⟩ := refErrorOf_isSome_of_bad hbad
  obtain ⟨hnames, hpno⟩ := refErrorOf_some_names herr
  rw [schedule_eq_refError hne herr]
  exact ⟨aid, pid, rfl, hnames, hpno, rfl⟩

/-- Witness for C6 at the one-activity network referencing the missing
predecessor `X`. -/
theorem C6_ref_error_spec_witness :
    (∃ a ∈ badS.activities, ∃ p ∈ a.predecessors,
      p ∉ idsOf badS.activities) ∧
    ∃ aid pid, (schedule badS).1 =
      Except.error (SchedulerError.unknownPredecessor aid pid) ∧
      (∃ a ∈ badS.activities, a.id = aid ∧ pid ∈ a.predecessors) ∧
      pid ∉ idsOf badS.activities ∧
      (schedule badS).2 = badS :=
  ⟨by decide, C6_ref_error_spec badS (by decide)⟩

/-- C5 fails on the code as stated: on the two-activity cyclic network
whose fields hold a prior run's values, `schedule()` raises the cycle
error but zeroes activity `A`'s early finish (reset runs before cycle
detection), mutating the computed fields. -/
theorem C5_counterexample :
    (schedule cycS).1 = Except.error SchedulerError.circularDependency ∧
    ((findAct cycS.activities "A").map Activity.EF).getD 0 = 2 ∧
    ((findAct ((schedule cycS).2.activities) "A").map Activity.EF).getD 0
      = 0 := by
  refine ⟨?_, ?_, ?_⟩ <;> decide

/-- C5 amended: on a referentially valid network containing a cycle,
`schedule()` fails with the cycle error, leaves every activity's
computed fields reset to their zero/false defaults (the reset that runs
before cycle detection), and leaves the cached order untouched. -/
theorem C5_cycle_resets_fields (s : CPMScheduler)
    (hnd : (idsOf s.activities).Nodup)
    (hvalid : validNet s.activities)
    (hcyc : hasCycle s.activities) :
    (schedule s).1 = Except.error SchedulerError.circularDependency ∧
    (schedule s).2.activities = resetNet s.activities ∧
    (schedule s).2.last_order = s.last_order := by
  have hne : s.activities ≠ [] := by
    obtain ⟨v, hc⟩ := hcyc
    have hedge : ∃ u w, edgeOf s.activities u w := by
      cases hc with
      | single h => exact ⟨_, _, h⟩
      | tail _ h => exact ⟨_, _, h⟩
    obtain ⟨u, w, a, ha, _, _⟩ := hedge
    intro he
    rw [he] at ha
    cases ha
  have hnone := (refErrorOf_eq_none_iff s.activities).mpr hvalid
  have hnd0 : (idsOf (resetNet s.activities)).Nodup := by
    rw [idsOf_resetNet]
    exact hnd
  have hc0 : hasCycle (resetNet s.activities) :=
    (hasCycle_congr (skel_resetNet s.activities)).mpr hcyc
  have hlen : ¬ ((kahnOrder (resetNet s.activities)).length =
      (resetNet s.activities).length) := by
    intro he
    exact absurd hc0
      ((kahn_length_iff hnd0 (validNet_resetNet hvalid)).mp he)
  rw [schedule_eq_cycle hne hnone hlen]
  exact ⟨rfl, rfl, rfl⟩

/-- Witness for the amended C5 at the two-activity cyclic network. -/
theorem C5_cycle_resets_fields_witness :
    (idsOf cycS.activities).Nodup ∧ validNet cycS.activities ∧
    hasCycle cycS.activities ∧
    ((schedule cycS).1 = Except.error SchedulerError.circularDependency ∧
      (schedule cycS).2.activities = resetNet cycS.activities ∧
      (schedule cycS).2.last_order = cycS.last_order) := by
  have hcyc : hasCycle cycS.activities := by
    refine ⟨"A", Relation.TransGen.head (b := "B") ?_
      (Relation.TransGen.single ?_)⟩
    · exact ⟨{ mkAct "B" 3 ["A"] with
        ES := 2, EF := 5, LS := 2, LF := 5, is_critical := true },
        by decide, by decide, by decide⟩
    · exact ⟨{ mkAct "A" 2 ["B"] with
        ES := 0, EF := 2, LS := 0, LF := 2, is_critical := true },
        by decide, by decide, by decide⟩
  exact ⟨by decide, by decide, hcyc,
    C5_cycle_resets_fields cycS (by decide) (by decide) hcyc⟩

/-- C10: a failed `schedule()` call (validation or cycle error) leaves
the cached `_last_order` unchanged, so `get_critical_path` still orders
critical activities by the last successful run's order, falling back to
dict insertion order when no run has ever succeeded. -/
theorem C10_failed_schedule_preserves_order (s : CPMScheduler)
    (hfail : exceptIsOk (schedule s).1 = false) :
    (schedule s).2.last_order = s.last_order ∧
    (s.last_order = [] → get_critical_path (schedule s).2 =
      ((((schedule s).2.activities).filter
        (fun a => a.is_critical)).map Activity.id)) ∧
    (s.last_order ≠ [] → get_critical_path (schedule s).2 =
      s.last_order.filter (fun aid =>
        ((findAct ((schedule s).2.activities) aid).map
          Activity.is_critical).getD false)) := by
  by_cases hne : s.activities = []
  · rw [schedule_eq_empty hne] at hfail
    cases hfail
  · have hshape : (schedule s).2.last_order = s.last_order := by
      cases herr : refErrorOf s.activities with
      | some pr =>
          obtain ⟨aid, pid⟩ := pr
          rw [schedule_eq_refError hne herr]
      | none =>
          by_cases hlen : (kahnOrder (resetNet s.activities)).length =
              (resetNet s.activities).length
          · rw [schedule_eq_ok hne herr hlen] at hfail
            cases hfail
          · rw [schedule_eq_cycle hne herr hlen]
    refine ⟨hshape, ?_, ?_⟩
    · intro h
      rw [get_critical_path, if_pos (by simp [hshape, h])]
    · intro h
      rw [get_critical_path, if_neg (by simp [hshape, h]), hshape]

/-- Witness for C10 at the referentially broken one-activity network,
whose cached order from a prior run is nonempty. -/
theorem C10_failed_schedule_preserves_order_witness :
    exceptIsOk (schedule badS).1 = false ∧
    ((schedule badS).2.last_order = badS.last_order ∧
    (badS.last_order = [] → get_critical_path (schedule badS).2 =
      ((((schedule badS).2.activities).filter
        (fun a => a.is_critical)).map Activity.id)) ∧
    (badS.last_order ≠ [] → get_critical_path (schedule badS).2 =
      badS.last_order.filter (fun aid =>
        ((findAct ((schedule badS).2.activities) aid).map
          Activity.is_critical).getD false))) :=
  ⟨by decide, C10_failed_schedule_preserves_order badS (by decide)⟩

/-- C4: on a nonempty, referentially valid network with unique ids,
`schedule()` fails with the cycle error exactly when the dependency
graph has a cycle, and the cycle exists exactly when the Kahn loop
emits fewer ids than there are activities. -/
theorem C4_cycle_detection_iff (s : CPMScheduler)
    (hnd : (idsOf s.activities).Nodup) (hne : s.activities ≠ [])
    (hvalid : validNet s.activities) :
    ((schedule s).1 = Except.error SchedulerError.circularDependency ↔
      hasCycle s.activities) ∧
    (hasCycle s.activities ↔
      (kahnOrder s.activities).length < s.activities.length) := by
  have hnd0 : (idsOf (resetNet s.activities)).Nodup := by
    rw [idsOf_resetNet]
    exact hnd
  have hkre : kahnOrder (resetNet s.activities) = kahnOrder s.activities :=
    kahnOrder_resetNet s.activities
  have hlenre : (resetNet s.activities).length = s.activities.length :=
    resetNet_length s.activities
  have hle : (kahnOrder s.activities).length ≤ s.activities.length :=
    kahnOrder_length_le hnd
  have hnone := (refErrorOf_eq_none_iff s.activities).mpr hvalid
  have hmain : (kahnOrder s.activities).length = s.activities.length ↔
      ¬ hasCycle s.activities := by
    rw [← hkre, ← hlenre, kahn_length_iff hnd0 (validNet_resetNet hvalid),
      hasCycle_congr (skel_resetNet s.activities)]
  constructor
  · constructor
    · intro herr
      by_contra hnc
      have hlen : (kahnOrder (resetNet s.activities)).length =
          (resetNet s.activities).length := by
        rw [hkre, hlenre]
        exact hmain.mpr hnc
      rw [schedule_eq_ok hne hnone hlen] at herr
      cases herr
    · intro hcyc
      have hlen : ¬ ((kahnOrder (resetNet s.activities)).length =
          (resetNet s.activities).length) := by
        rw [hkre, hlenre]
        intro he
        exact absurd hcyc (hmain.mp he)
      rw [schedule_eq_cycle hne hnone hlen]
  · constructor
    · intro hcyc
      have hne2 : ¬ ((kahnOrder s.activities).length =
          s.activities.length) := fun he => absurd hcyc (hmain.mp he)
      omega
    · intro hlt
      by_contra hnc
      have := hmain.mpr hnc
      omega

/-- Witness for C4 at the two-activity cyclic network. -/
theorem C4_cycle_detection_iff_witness :
    (idsOf cycS.activities).Nodup ∧ cycS.activities ≠ [] ∧
    validNet cycS.activities ∧
    (((schedule cycS).1 = Except.error SchedulerError.circularDependency ↔
      hasCycle cycS.activities) ∧
    (hasCycle cycS.activities ↔
      (kahnOrder cycS.activities).length < cycS.activities.length)) :=
  ⟨by decide, by decide, by decide,
    C4_cycle_detection_iff cycS (by decide) (by decide) (by decide)⟩

/-- In a complete deterministic topological order every successor of an
activity appears strictly after it. -/
theorem succ_in_suffix {net : List Activity} {order : List String}
    (hnd : (idsOf net).Nodup) (hGood : GoodOrder net order)
    {o1 o2 : List String} {v : String} (hsplit : order = o1 ++ v :: o2)
    {s : String} (hs : s ∈ succList net v) : s ∈ o2 := by
  have hndo : order.Nodup := (hGood.perm.nodup_iff).mpr hnd
  rcases mem_succList_iff.mp hs with ⟨a, ha, haid, hva⟩
  have hsid : s ∈ idsOf net := List.mem_map.mpr ⟨a, ha, haid⟩
  have hfind : findAct net s = some a := haid ▸ findAct_of_mem hnd ha
  have hvpred : v ∈ predsOf net s := by
    rw [predsOf, hfind]
    exact hva
  have hso : s ∈ order := hGood.perm.mem_iff.mpr hsid
  rw [hsplit, List.mem_append, List.mem_cons] at hso
  rcases hso with hso | hso | hso
  · rcases List.append_of_mem hso with ⟨x1, x2, hx⟩
    have horder2 : order = x1 ++ s :: (x2 ++ v :: o2) := by
      rw [hsplit, hx, List.append_assoc, List.cons_append]
    have hv_in_x1 : v ∈ x1 := hGood.topo x1 s (x2 ++ v :: o2) horder2 v hvpred
    have hnd2 : (x1 ++ s :: (x2 ++ v :: o2)).Nodup := horder2 ▸ hndo
    rcases nodup_split hnd2 with ⟨_, _, hdisj⟩
    exact absurd (List.mem_cons_of_mem s (List.mem_append_right x2
      (List.mem_cons_self v o2))) (hdisj v hv_in_x1)
  · subst hso
    have hv_in : s ∈ o1 := hGood.topo o1 s o2 hsplit s hvpred
    have hnd2 : (o1 ++ s :: o2).Nodup := hsplit ▸ hndo
    rcases nodup_split hnd2 with ⟨hnot, _, _⟩
    exact absurd hv_in hnot
  · exact hso

/-- In a network all of whose activities satisfy the CPM field equations,
every activity finishes early no later than it finishes late. -/
theorem ef_le_lf {net : List Activity} {order : List String}
    (hnd : (idsOf net).Nodup) (hGood : GoodOrder net order)
    (hFOk : ∀ a ∈ net, FieldsOk net (intMaxList (net.map Activity.EF)) a) :
    ∀ a ∈ net, a.EF ≤ a.LF := by
  suffices H : ∀ o2 o1, order = o1 ++ o2 → ∀ v ∈ o2, ∀ a,
      findAct net v = some a → a.EF ≤ a.LF by
    intro a ha
    have hvo : a.id ∈ order :=
      hGood.perm.mem_iff.mpr (List.mem_map.mpr ⟨a, ha, rfl⟩)
    exact H order [] rfl a.id hvo a (findAct_of_mem hnd ha)
  intro o2
  induction o2 with
  | nil =>
      intro o1 _ v hv
      cases hv
  | cons w o2 ih =>
      intro o1 hsplit v hv a hfa
      rcases List.mem_cons.mp hv with rfl | hv2
      · have hmem : a ∈ net := findAct_mem hfa
        have hOk := hFOk a hmem
        have haid : a.id = v := findAct_id hfa
        have hsplit3 : order = (o1 ++ [v]) ++ o2 := by
          rw [hsplit, List.append_assoc, List.singleton_append]
        by_cases hsn : succList net a.id = []
        · have hlf := hOk.lf
          rw [if_pos (by simp [hsn])] at hlf
          have hle : a.EF ≤ intMaxList (net.map Activity.EF) :=
            le_intMaxList (List.mem_map.mpr ⟨a, hmem, rfl⟩)
          rw [hlf]
          exact hle
        · have hlf := hOk.lf
          rw [if_neg (by simpa using hsn)] at hlf
          have hmapne : (succList net a.id).map
              (fun t => ((findAct net t).map Activity.LS).getD 0) ≠ [] := by
            simpa using hsn
          have hall : ∀ x ∈ (succList net a.id).map
              (fun t => ((findAct net t).map Activity.LS).getD 0),
              a.EF ≤ x := by
            intro x hx
            rcases List.mem_map.mp hx with ⟨t, htmem, htx⟩
            have htv : t ∈ succList net v := haid ▸ htmem
            rcases mem_succList_iff.mp htv with ⟨c, hc, hcid, hvc⟩
            have hfc : findAct net t = some c := hcid ▸ findAct_of_mem hnd hc
            have hcOk := hFOk c hc
            have hto2 : t ∈ o2 := succ_in_suffix hnd hGood hsplit htv
            have hcEFLF : c.EF ≤ c.LF :=
              ih (o1 ++ [v]) hsplit3 t hto2 c hfc
            have hfa2 : findAct net a.id = some a := by
              rw [haid]
              exact hfa
            have hces := hcOk.es
            rw [if_neg (by
              simp only [List.isEmpty_iff]
              intro he
              rw [he] at hvc
              cases hvc)] at hces
            have haEF_le : a.EF ≤ c.ES := by
              rw [hces]
              refine le_intMaxList (List.mem_map.mpr ⟨v, hvc, ?_⟩)
              rw [← haid, hfa2]
              rfl
            have hcef := hcOk.ef
            have hcls := hcOk.ls
            have hxval : x = c.LS := by
              rw [← htx, hfc]
              rfl
            rw [hxval]
            omega
          rw [hlf]
          exact le_intMinList hmapne hall
      · exact ih (o1 ++ [w]) (by rw [hsplit, List.append_assoc,
          List.singleton_append]) v hv2 a hfa

/-- C8: for every network with unique ids, after a successful
`schedule()` call every activity satisfies `free_float ≤ total_float`,
where `free_float` equals `total_float` for an activity with no
successors and equals (minimum `ES` among its successors) minus `EF`
otherwise. -/
theorem C8_free_float_le_spec (s : CPMScheduler)
    (hnd : (idsOf s.activities).Nodup)
    (hok : exceptIsOk (schedule s).1 = true) :
    ∀ a ∈ (schedule s).2.activities,
      a.free_float ≤ a.total_float ∧
      (succList ((schedule s).2.activities) a.id = [] →
        a.free_float = a.total_float) ∧
      (succList ((schedule s).2.activities) a.id ≠ [] →
        a.free_float =
          intMinList ((succList ((schedule s).2.activities) a.id).map
            (fun v => ((findAct ((schedule s).2.activities) v).map
              Activity.ES).getD 0)) - a.EF) := by
  by_cases hne : s.activities = []
  · rw [schedule_eq_empty hne]
    intro a ha
    rw [hne] at ha
    cases ha
  · obtain ⟨_, _, hGood, hskel, hFOk⟩ := schedule_success_full hnd hne hok
    have hndF : (idsOf ((schedule s).2.activities)).Nodup := by
      rw [idsOf_congr hskel]
      exact hnd
    have hEFLF := ef_le_lf hndF hGood hFOk
    intro a ha
    have h := hFOk a ha
    by_cases hsn : succList ((schedule s).2.activities) a.id = []
    · have hff := h.ff
      rw [if_pos (by simp [hsn])] at hff
      exact ⟨le_of_eq hff, fun _ => hff, fun hc => absurd hsn hc⟩
    · have hff := h.ff
      rw [if_neg (by simpa using hsn)] at hff
      have hlf := h.lf
      rw [if_neg (by simpa using hsn)] at hlf
      have hne2 : succList ((schedule s).2.activities) a.id ≠ [] := hsn
      have hmono : intMinList
            ((succList ((schedule s).2.activities) a.id).map
              (fun v => ((findAct ((schedule s).2.activities) v).map
                Activity.ES).getD 0)) ≤
          intMinList
            ((succList ((schedule s).2.activities) a.id).map
              (fun v => ((findAct ((schedule s).2.activities) v).map
                Activity.LS).getD 0)) := by
        apply intMinList_map_mono hne2
        intro t ht
        rcases mem_succList_iff.mp ht with ⟨c, hc, hcid, _⟩
        have hfc : findAct ((schedule s).2.activities) t = some c :=
          hcid ▸ findAct_of_mem hndF hc
        rw [hfc]
        have hcOk := hFOk c hc
        have hcef := hcOk.ef
        have hcls := hcOk.ls
        have hcEFLF : c.EF ≤ c.LF := hEFLF c hc
        show c.ES ≤ c.LS
        omega
      have htf := h.tf
      have hls := h.ls
      have hef := h.ef
      refine ⟨?_, fun hc => absurd hc hsn, fun _ => hff⟩
      rw [hff]
      rw [← hlf] at hmono
      omega

/-- Witness for C8 at the five-activity example network. -/
theorem C8_free_float_le_spec_witness :
    (idsOf exS.activities).Nodup ∧ exceptIsOk (schedule exS).1 = true ∧
    ∀ a ∈ (schedule exS).2.activities,
      a.free_float ≤ a.total_float ∧
      (succList ((schedule exS).2.activities) a.id = [] →
        a.free_float = a.total_float) ∧
      (succList ((schedule exS).2.activities) a.id ≠ [] →
        a.free_float =
          intMinList ((succList ((schedule exS).2.activities) a.id).map
            (fun v => ((findAct ((schedule exS).2.activities) v).map
              Activity.ES).getD 0)) - a.EF) :=
  ⟨by decide, by decide, C8_free_float_le_spec exS (by decide) (by decide)⟩

/-- `sumDur` splits over list concatenation. -/
theorem sumDur_append (net : List Activity) (p1 p2 : List String) :
    sumDur net (p1 ++ p2) = sumDur net p1 + sumDur net p2 := by
  rw [sumDur, sumDur, sumDur, List.map_append, List.sum_append]

/-- `sumDur` on a one-element path is that activity's duration. -/
theorem sumDur_singleton (net : List Activity) (v : String) :
    sumDur net [v] = durOf net v := by
  simp [sumDur]

/-- Appending an element on the right keeps the head of a nonempty list. -/
theorem head_append_singleton {path : List String} {x v : String}
    (h : path.head? = some x) : (path ++ [v]).head? = some x := by
  cases path with
  | nil => cases h
  | cons y ys => simpa using h

/-- The last element of a list extended on the right. -/
theorem getLast_append_singleton (path : List String) (v : String) :
    (path ++ [v]).getLast? = some v := by
  induction path with
  | nil => rfl
  | cons y ys ih =>
      rw [List.cons_append, List.getLast?_cons, ih]
      cases ys <;> rfl

/-- A zero-float activity with no predecessors is itself a critical path
reaching it, of summed duration its early finish. -/
theorem critical_single {net : List Activity} {pf : Int} {v : String}
    {a : Activity} (hfa : findAct net v = some a)
    (hOk : FieldsOk net pf a) (htf : a.total_float = 0)
    (hp : predsOf net v = []) :
    ([v] : List String).head? = some v ∧
    ([v] : List String).getLast? = some v ∧
    List.Chain' (edgeOf net) [v] ∧
    (∀ u ∈ ([v] : List String),
      ((findAct net u).map Activity.is_critical).getD false = true) ∧
    predsOf net v = [] ∧ sumDur net [v] = a.EF := by
  have hpreds : a.predecessors = [] := by
    rw [predsOf, hfa] at hp
    exact hp
  have hes := hOk.es
  rw [if_pos (by simp [hpreds])] at hes
  have hef := hOk.ef
  refine ⟨rfl, rfl, List.chain'_singleton v, ?_, hp, ?_⟩
  · intro u hu
    rcases List.mem_cons.mp hu with rfl | h0
    · rw [hfa]
      show a.is_critical = true
      rw [hOk.crit, htf]
      decide
    · cases h0
  · rw [sumDur_singleton, durOf, hfa]
    show (a.duration : Int) = a.EF
    omega

/-- From any zero-float activity of a successfully scheduled network a
chain of critical activities can be traced backwards to an activity with
no predecessors; its summed durations equal the early finish of the
activity it reaches. -/
theorem critical_back {net : List Activity} {order : List String}
    (hnd : (idsOf net).Nodup) (hGood : GoodOrder net order)
    (hFOk : ∀ a ∈ net, FieldsOk net (intMaxList (net.map Activity.EF)) a)
    (hEFLF : ∀ a ∈ net, a.EF ≤ a.LF) :
    ∀ n o1 v o2, o1.length ≤ n → order = o1 ++ v :: o2 →
      ∀ a, findAct net v = some a → a.total_float = 0 →
      ∃ path first, path.head? = some first ∧ path.getLast? = some v ∧
        List.Chain' (edgeOf net) path ∧
        (∀ u ∈ path, ((findAct net u).map Activity.is_critical).getD false
          = true) ∧
        predsOf net first = [] ∧
        sumDur net path = a.EF := by
  intro n
  induction n with
  | zero =>
      intro o1 v o2 hlen hsplit a hfa htf
      have ho1 : o1 = [] := List.eq_nil_of_length_eq_zero (Nat.le_zero.mp hlen)
      subst ho1
      have hp : predsOf net v = [] := by
        rw [List.eq_nil_iff_forall_not_mem]
        intro p hpm
        exact absurd (hGood.topo [] v o2 hsplit p hpm) (List.not_mem_nil p)
      obtain ⟨h1, h2, h3, h4, h5, h6⟩ :=
        critical_single hfa (hFOk a (findAct_mem hfa)) htf hp
      exact ⟨[v], v, h1, h2, h3, h4, h5, h6⟩
  | succ n ih =>
      intro o1 v o2 hlen hsplit a hfa htf
      by_cases hp : predsOf net v = []
      · obtain ⟨h1, h2, h3, h4, h5, h6⟩ :=
          critical_single hfa (hFOk a (findAct_mem hfa)) htf hp
        exact ⟨[v], v, h1, h2, h3, h4, h5, h6⟩
      · have hOk := hFOk a (findAct_mem hfa)
        have hpreds : a.predecessors = predsOf net v := by
          rw [predsOf, hfa]
          rfl
        have hpne : a.predecessors ≠ [] := by
          rw [hpreds]
          exact hp
        have hes := hOk.es
        rw [if_neg (by simpa using hpne)] at hes
        have hmapne : a.predecessors.map
            (fun p => ((findAct net p).map Activity.EF).getD 0) ≠ [] := by
          simpa using hpne
        rcases List.mem_map.mp (intMaxList_mem hmapne) with ⟨p, hpa, hval⟩
        have hpv : p ∈ predsOf net v := hpreds ▸ hpa
        have hpo1 : p ∈ o1 := hGood.topo o1 v o2 hsplit p hpv
        have hpid : p ∈ idsOf net := hGood.perm.mem_iff.mp
          (hsplit ▸ List.mem_append_left _ hpo1)
        rcases mem_idsOf_iff.mp hpid with ⟨b, hfb⟩
        have haes : a.ES = b.EF := by
          rw [hes, ← hval, hfb]
          rfl
        rcases List.append_of_mem hpo1 with ⟨x1, x2, hx⟩
        have horder2 : order = x1 ++ p :: (x2 ++ v :: o2) := by
          rw [hsplit, hx, List.append_assoc, List.cons_append]
        have hx1len : x1.length ≤ n := by
          rw [hx] at hlen
          simp [List.length_append] at hlen
          omega
        have hbid : b.id = p := findAct_id hfb
        have hsucc_v : v ∈ succList net p :=
          mem_succList_iff.mpr ⟨a, findAct_mem hfa, findAct_id hfa, hpa⟩
        have hOkb := hFOk b (findAct_mem hfb)
        have hlfb := hOkb.lf
        rw [hbid] at hlfb
        rw [if_neg (by
          simp only [List.isEmpty_iff]
          intro he
          rw [he] at hsucc_v
          cases hsucc_v)] at hlfb
        have hble : b.LF ≤ a.LS := by
          rw [hlfb]
          refine intMinList_le (List.mem_map.mpr ⟨v, hsucc_v, ?_⟩)
          rw [hfa]
          rfl
        have hbEFLF : b.EF ≤ b.LF := hEFLF b (findAct_mem hfb)
        have htfb : b.total_float = 0 := by
          have h1 := hOkb.tf
          have h2 := hOkb.ls
          have h3 := hOkb.ef
          have h4 := hOk.tf
          omega
        obtain ⟨path, first, hh, hl, hch, hcr, hpf, hsum⟩ :=
          ih x1 p (x2 ++ v :: o2) hx1len horder2 b hfb htfb
        refine ⟨path ++ [v], first, head_append_singleton hh,
          getLast_append_singleton path v, ?_, ?_, hpf, ?_⟩
        · refine List.Chain'.append hch (List.chain'_singleton v) ?_
          intro x hx' y hy'
          have hxp : x = p := by
            rw [hl] at hx'
            exact (Option.some_inj.mp hx').symm
          have hyv : y = v := (Option.some_inj.mp hy').symm
          rw [hxp, hyv]
          exact edgeOf_iff_mem_succList.mpr hsucc_v
        · intro u hu
          rcases List.mem_append.mp hu with hu1 | hu2
          · exact hcr u hu1
          · rcases List.mem_cons.mp hu2 with rfl | h0
            · rw [hfa]
              show a.is_critical = true
              rw [hOk.crit, htf]
              decide
            · cases h0
        · rw [sumDur_append, hsum, sumDur_singleton, durOf, hfa]
          show b.EF + (a.duration : Int) = a.EF
          have h3 := hOk.ef
          omega

/-- A zero-float activity at a sink: its late finish is the project
finish and its float vanishes. -/
theorem sink_float_zero {net : List Activity} {v : String} {a : Activity}
    (hfa : findAct net v = some a)
    (hOk : FieldsOk net (intMaxList (net.map Activity.EF)) a)
    (hsv : succList net v = [])
    (haef : a.EF = intMaxList (net.map Activity.EF)) :
    a.total_float = 0 := by
  have hvid : a.id = v := findAct_id hfa
  have hlf := hOk.lf
  rw [hvid, if_pos (by simp [hsv])] at hlf
  have h1 := hOk.ls
  have h2 := hOk.ef
  have h3 := hOk.tf
  omega

/-- Every successfully scheduled nonempty network has a successor-free
activity whose early finish attains the project finish and whose total
float is zero. -/
theorem critical_sink {net : List Activity} {order : List String}
    (hnd : (idsOf net).Nodup) (hGood : GoodOrder net order)
    (hFOk : ∀ a ∈ net, FieldsOk net (intMaxList (net.map Activity.EF)) a)
    (hne : net ≠ []) :
    ∃ w b, findAct net w = some b ∧ succList net w = [] ∧
      b.EF = intMaxList (net.map Activity.EF) ∧ b.total_float = 0 := by
  have hmapne : net.map Activity.EF ≠ [] := by simpa using hne
  suffices H : ∀ n o1 v o2, o2.length ≤ n → order = o1 ++ v :: o2 →
      ∀ a, findAct net v = some a →
      a.EF = intMaxList (net.map Activity.EF) →
      ∃ w b, findAct net w = some b ∧ succList net w = [] ∧
        b.EF = intMaxList (net.map Activity.EF) ∧ b.total_float = 0 by
    rcases List.mem_map.mp (intMaxList_mem hmapne) with ⟨a, ha, haef⟩
    have hvo : a.id ∈ order :=
      hGood.perm.mem_iff.mpr (List.mem_map.mpr ⟨a, ha, rfl⟩)
    rcases List.append_of_mem hvo with ⟨o1, o2, hsplit⟩
    exact H o2.length o1 a.id o2 le_rfl hsplit a (findAct_of_mem hnd ha) haef
  intro n
  induction n with
  | zero =>
      intro o1 v o2 hlen hsplit a hfa haef
      have ho2 : o2 = [] := List.eq_nil_of_length_eq_zero (Nat.le_zero.mp hlen)
      subst ho2
      have hsv : succList net v = [] := by
        rw [List.eq_nil_iff_forall_not_mem]
        intro t ht
        exact absurd (succ_in_suffix hnd hGood hsplit ht) (List.not_mem_nil t)
      exact ⟨v, a, hfa, hsv, haef,
        sink_float_zero hfa (hFOk a (findAct_mem hfa)) hsv haef⟩
  | succ n ih =>
      intro o1 v o2 hlen hsplit a hfa haef
      by_cases hsv : succList net v = []
      · exact ⟨v, a, hfa, hsv, haef,
          sink_float_zero hfa (hFOk a (findAct_mem hfa)) hsv haef⟩
      · rcases List.exists_mem_of_ne_nil _ hsv with ⟨t, ht⟩
        have hto2 : t ∈ o2 := succ_in_suffix hnd hGood hsplit ht
        rcases mem_succList_iff.mp ht with ⟨c, hc, hcid, hvc⟩
        have hfc : findAct net t = some c := hcid ▸ findAct_of_mem hnd hc
        have hOkc := hFOk c hc
        have hces := hOkc.es
        rw [if_neg (by
          simp only [List.isEmpty_iff]
          intro he
          rw [he] at hvc
          cases hvc)] at hces
        have hcge : a.EF ≤ c.ES := by
          rw [hces]
          refine le_intMaxList (List.mem_map.mpr ⟨v, hvc, ?_⟩)
          rw [hfa]
          rfl
        have hcEFle : c.EF ≤ intMaxList (net.map Activity.EF) :=
          le_intMaxList (List.mem_map.mpr ⟨c, hc, rfl⟩)
        have hdnn : (0 : Int) ≤ (c.duration : Int) := Int.natCast_nonneg _
        have hcef := hOkc.ef
        have hcefpf : c.EF = intMaxList (net.map Activity.EF) := by omega
        rcases List.append_of_mem hto2 with ⟨x1, x2, hx⟩
        have horder2 : order = (o1 ++ v :: x1) ++ t :: x2 := by
          rw [hsplit, hx, List.append_assoc, List.cons_append]
        have hx2len : x2.length ≤ n := by
          rw [hx] at hlen
          simp [List.length_append] at hlen
          omega
        exact ih (o1 ++ v :: x1) t x2 hx2len horder2 c hfc hcefpf

/-- C9: for every network with unique ids, nonempty and successfully
scheduled, the critical activities contain a dependency path from an
activity with no predecessors to an activity with no successors whose
summed durations equal `project_duration()`. -/
theorem C9_critical_path_exists (s : CPMScheduler)
    (hnd : (idsOf s.activities).Nodup) (hne : s.activities ≠ [])
    (hok : exceptIsOk (schedule s).1 = true) :
    ∃ path first lastv,
      path.head? = some first ∧ path.getLast? = some lastv ∧
      List.Chain' (edgeOf ((schedule s).2.activities)) path ∧
      (∀ u ∈ path, ((findAct ((schedule s).2.activities) u).map
        Activity.is_critical).getD false = true) ∧
      predsOf ((schedule s).2.activities) first = [] ∧
      succList ((schedule s).2.activities) lastv = [] ∧
      sumDur ((schedule s).2.activities) path =
        project_duration (schedule s).2 := by
  obtain ⟨_, _, hGood, hskel, hFOk⟩ := schedule_success_full hnd hne hok
  have hndF : (idsOf ((schedule s).2.activities)).Nodup := by
    rw [idsOf_congr hskel]
    exact hnd
  have hneF : (schedule s).2.activities ≠ [] := by
    intro he
    have := hskel
    rw [he] at this
    have : skel s.activities = [] := this.symm
    rw [skel] at this
    exact hne (List.map_eq_nil_iff.mp this)
  have hEFLF := ef_le_lf hndF hGood hFOk
  obtain ⟨w, b, hfw, hsw, hbef, hbtf⟩ := critical_sink hndF hGood hFOk hneF
  have hwo : w ∈ (schedule s).2.last_order :=
    hGood.perm.mem_iff.mpr (mem_idsOf_iff.mpr ⟨b, hfw⟩)
  rcases List.append_of_mem hwo with ⟨o1, o2, hsplit⟩
  obtain ⟨path, first, hh, hl, hch, hcr, hpf, hsum⟩ :=
    critical_back hndF hGood hFOk hEFLF o1.length o1 w o2 le_rfl hsplit
      b hfw hbtf
  refine ⟨path, first, w, hh, hl, hch, hcr, hpf, hsw, ?_⟩
  rw [hsum, hbef, project_duration, if_neg (by simpa using hneF)]

/-- Witness for C9 at the five-activity example network. -/
theorem C9_critical_path_exists_witness :
    (idsOf exS.activities).Nodup ∧ exS.activities ≠ [] ∧
    exceptIsOk (schedule exS).1 = true ∧
    ∃ path first lastv,
      path.head? = some first ∧ path.getLast? = some lastv ∧
      List.Chain' (edgeOf ((schedule exS).2.activities)) path ∧
      (∀ u ∈ path, ((findAct ((schedule exS).2.activities) u).map
        Activity.is_critical).getD false = true) ∧
      predsOf ((schedule exS).2.activities) first = [] ∧
      succList ((schedule exS).2.activities) lastv = [] ∧
      sumDur ((schedule exS).2.activities) path =
        project_duration (schedule exS).2 :=
  ⟨by decide, by decide, by decide,
    C9_critical_path_exists exS (by decide) (by decide) (by decide)⟩

/-! Determinism: two networks equal as id-to-activity mappings drive the
whole engine to identical outputs, because the only order-sensitive
choices of `_topological_sort` go through `sorted`. -/

/-- Two networks with duplicate-free ids and pointwise-equal lookup are
permutations of each other. -/
theorem net_perm_of_pointwise {n1 n2 : List Activity}
    (hnd1 : (idsOf n1).Nodup) (hnd2 : (idsOf n2).Nodup)
    (hpt : ∀ v, findAct n1 v = findAct n2 v) : n1.Perm n2 := by
  refine (List.perm_ext_iff_of_nodup (List.Nodup.of_map _ hnd1)
    (List.Nodup.of_map _ hnd2)).mpr ?_
  intro a
  constructor
  · intro ha
    have h := findAct_of_mem hnd1 ha
    rw [hpt a.id] at h
    exact findAct_mem h
  · intro ha
    have h := findAct_of_mem hnd2 ha
    rw [← hpt a.id] at h
    exact findAct_mem h

/-- Pointwise-equal networks have permuted successor lists. -/
theorem succList_perm_of_pointwise {n1 n2 : List Activity}
    (hnd1 : (idsOf n1).Nodup) (hnd2 : (idsOf n2).Nodup)
    (hpt : ∀ v, findAct n1 v = findAct n2 v) (p : String) :
    (succList n1 p).Perm (succList n2 p) := by
  rw [List.perm_iff_count]
  intro v
  rw [count_succList hnd1 p v, count_succList hnd2 p v, predsOf, predsOf,
    hpt v]

/-- With duplicate-free keys an association list holds at most one value
per key. -/
theorem keyed_unique {m : List (String × Int)}
    (hnd : (m.map Prod.fst).Nodup) {k : String} {x y : Int}
    (hx : (k, x) ∈ m) (hy : (k, y) ∈ m) : x = y := by
  have h := List.inj_on_of_nodup_map hnd hx hy rfl
  injection h with _ h2

/-- With duplicate-free keys the in-degree lookup depends on the
association list only as a multiset. -/
theorem degGet_perm {m1 m2 : List (String × Int)} (h : m1.Perm m2)
    (hnd : (m1.map Prod.fst).Nodup) (k : String) :
    degGet m1 k = degGet m2 k := by
  cases h1 : m1.find? (fun p => p.1 == k) with
  | none =>
      cases h2 : m2.find? (fun p => p.1 == k) with
      | none => simp [degGet, h1, h2]
      | some r =>
          have hr2 : r ∈ m2 := List.mem_of_find?_eq_some h2
          have hrk : r.1 = k := by simpa using List.find?_some h2
          have hr1 : r ∈ m1 := h.mem_iff.mpr hr2
          have hcon := List.find?_eq_none.mp h1 r hr1
          simp [hrk] at hcon
  | some p =>
      have hp1 : p ∈ m1 := List.mem_of_find?_eq_some h1
      have hpk : p.1 = k := by simpa using List.find?_some h1
      cases h2 : m2.find? (fun r => r.1 == k) with
      | none =>
          have hcon := List.find?_eq_none.mp h2 p (h.mem_iff.mp hp1)
          simp [hpk] at hcon
      | some r =>
          have hr1 : r ∈ m1 := h.mem_iff.mpr (List.mem_of_find?_eq_some h2)
          have hrk : r.1 = k := by simpa using List.find?_some h2
          simp only [degGet, h1, h2]
          have hp' : (k, p.2) ∈ m1 := by
            rw [← hpk]
            simpa using hp1
          have hr' : (k, r.2) ∈ m1 := by
            rw [← hrk]
            simpa using hr1
          exact keyed_unique hnd hp' hr'

/-- The inner successor loop sends permuted in-degree maps with
duplicate-free keys to permuted maps and the very same queue. -/
theorem stepSuccs_ext : ∀ (l : List String) (m1 m2 : List (String × Int))
    (q : List String), m1.Perm m2 → (m1.map Prod.fst).Nodup →
    (stepSuccs l m1 q).1.Perm (stepSuccs l m2 q).1 ∧
    (stepSuccs l m1 q).2 = (stepSuccs l m2 q).2
  | [], _, _, _, h, _ => ⟨h, rfl⟩
  | s :: rest, m1, m2, q, h, hnd => by
      rw [stepSuccs_cons, stepSuccs_cons]
      have hdec : (degDec m1 s).Perm (degDec m2 s) := h.map _
      have hnd' : ((degDec m1 s).map Prod.fst).Nodup := by
        rw [keys_degDec]
        exact hnd
      rw [← degGet_perm hdec hnd' s]
      exact stepSuccs_ext rest (degDec m1 s) (degDec m2 s) _ hdec hnd'

/-- The Kahn loop produces the same order from permuted in-degree maps
with duplicate-free keys and successor functions equal after sorting. -/
theorem kahnLoop_ext {succs1 succs2 : String → List String}
    (hss : ∀ v, sortStr (succs1 v) = sortStr (succs2 v)) :
    ∀ (fuel : Nat) (q : List String) (m1 m2 : List (String × Int))
      (o : List String), m1.Perm m2 → (m1.map Prod.fst).Nodup →
      kahnLoop succs1 fuel q m1 o = kahnLoop succs2 fuel q m2 o
  | 0, _, _, _, _, _, _ => rfl
  | _ + 1, [], _, _, _, _, _ => rfl
  | fuel + 1, cur :: queue, m1, m2, o, h, hnd => by
      show kahnLoop succs1 fuel (stepSuccs (sortStr (succs1 cur)) m1 queue).2
          (stepSuccs (sortStr (succs1 cur)) m1 queue).1 (o ++ [cur]) =
        kahnLoop succs2 fuel (stepSuccs (sortStr (succs2 cur)) m2 queue).2
          (stepSuccs (sortStr (succs2 cur)) m2 queue).1 (o ++ [cur])
      rw [← hss cur]
      obtain ⟨hp, hq⟩ := stepSuccs_ext (sortStr (succs1 cur)) m1 m2 queue h hnd
      rw [← hq]
      have hndk : ((stepSuccs (sortStr (succs1 cur)) m1 queue).1.map
          Prod.fst).Nodup := by
        rw [stepSuccs_keys]
        exact hnd
      exact kahnLoop_ext hss fuel _ _ _ _ hp hndk

/-- `_topological_sort` computes the same order on two networks equal as
id-to-activity mappings, whatever their insertion orders. -/
theorem kahnOrder_ext {n1 n2 : List Activity} (hperm : n1.Perm n2)
    (hnd1 : (idsOf n1).Nodup) (hnd2 : (idsOf n2).Nodup)
    (hpt : ∀ v, findAct n1 v = findAct n2 v) :
    kahnOrder n1 = kahnOrder n2 := by
  have hfuel : kahnFuel n1 = kahnFuel n2 := by
    rw [kahnFuel, kahnFuel, hperm.length_eq, (hperm.map _).sum_eq]
  have hdegperm : (initialDeg n1).Perm (initialDeg n2) := hperm.map _
  have hq : initialQueue n1 = initialQueue n2 := by
    rw [initialQueue, initialQueue]
    exact sortStr_eq_of_perm ((hdegperm.filter _).map _)
  have hss : ∀ v, sortStr (succList n1 v) = sortStr (succList n2 v) :=
    fun v => sortStr_eq_of_perm (succList_perm_of_pointwise hnd1 hnd2 hpt v)
  have hndk : ((initialDeg n1).map Prod.fst).Nodup := by
    rw [keys_initialDeg]
    exact hnd1
  rw [kahnOrder, kahnOrder, hfuel, hq]
  exact kahnLoop_ext hss (kahnFuel n2) (initialQueue n2) _ _ [] hdegperm hndk

/-- A pass run over the same visit list on pointwise-equal networks
keeps the networks pointwise equal. -/
theorem foldl_update_pointwise {f g : List Activity → Activity → Activity}
    (hid1 : ∀ net a, (f net a).id = a.id)
    (hid2 : ∀ net a, (g net a).id = a.id)
    (hdep : ∀ net net' a, (∀ p, findAct net p = findAct net' p) →
      f net a = g net' a) :
    ∀ (todo : List String) (net net' : List Activity),
      (∀ p, findAct net p = findAct net' p) →
      ∀ p, findAct (todo.foldl (fun n aid => updateAct n aid (f n)) net) p =
        findAct (todo.foldl (fun n aid => updateAct n aid (g n)) net') p := by
  intro todo
  induction todo with
  | nil =>
      intro net net' h p
      exact h p
  | cons aid rest ih =>
      intro net net' h p
      rw [List.foldl_cons, List.foldl_cons]
      apply ih
      intro q
      rw [findAct_updateAct (fun a => hid1 net a),
        findAct_updateAct (fun a => hid2 net' a), ← h q]
      cases hq : findAct net q with
      | none => rfl
      | some a =>
          simp only [Option.map_some']
          by_cases hcase : a.id = aid
          · simp [hcase, hdep net net' a h]
          · simp [hcase]

/-- `lfCalc` is invariant under permuting the successor list and
pointwise-equal network lookups. -/
theorem lfCalc_perm {succs1 succs2 : String → List String} {pf : Int}
    {net1 net2 : List Activity} {a : Activity}
    (hs : (succs1 a.id).Perm (succs2 a.id))
    (hfa : ∀ p, findAct net1 p = findAct net2 p) :
    lfCalc succs1 pf net1 a = lfCalc succs2 pf net2 a := by
  have hfeq : (fun s => ((findAct net1 s).map Activity.LS).getD 0) =
      (fun s => ((findAct net2 s).map Activity.LS).getD 0) := by
    funext p
    rw [hfa p]
  by_cases h1 : succs1 a.id = []
  · have h2 : succs2 a.id = [] := (h1 ▸ hs).symm.eq_nil
    rw [lfCalc, lfCalc, if_pos (by simp [h1]), if_pos (by simp [h2])]
  · have h2 : succs2 a.id ≠ [] := by
      intro he
      exact h1 ((he ▸ hs).eq_nil)
    rw [lfCalc, lfCalc, if_neg (by simpa using h1), if_neg (by simpa using h2),
      hfeq]
    exact intMinList_perm (hs.map _)

/-- `ffCalc` is invariant under permuting the successor list and
networks with equal `ES` lookups. -/
theorem ffCalc_perm {succs1 succs2 : String → List String}
    {net1 net2 : List Activity} {a : Activity} {tf : Int}
    (hs : (succs1 a.id).Perm (succs2 a.id))
    (hES : ∀ p, (findAct net1 p).map Activity.ES =
      (findAct net2 p).map Activity.ES) :
    ffCalc succs1 net1 a tf = ffCalc succs2 net2 a tf := by
  have hfeq : (fun s => ((findAct net1 s).map Activity.ES).getD 0) =
      (fun s => ((findAct net2 s).map Activity.ES).getD 0) := by
    funext p
    rw [hES p]
  by_cases h1 : succs1 a.id = []
  · have h2 : succs2 a.id = [] := (h1 ▸ hs).symm.eq_nil
    rw [ffCalc, ffCalc, if_pos (by simp [h1]), if_pos (by simp [h2])]
  · have h2 : succs2 a.id ≠ [] := by
      intro he
      exact h1 ((he ▸ hs).eq_nil)
    rw [ffCalc, ffCalc, if_neg (by simpa using h1), if_neg (by simpa using h2),
      hfeq]
    rw [intMinList_perm (hs.map _)]

/-- `bwdUpdate` is invariant under permuting the successor list and
pointwise-equal network lookups. -/
theorem bwdUpdate_perm {succs1 succs2 : String → List String} {pf : Int}
    {net1 net2 : List Activity} {a : Activity}
    (hs : (succs1 a.id).Perm (succs2 a.id))
    (hfa : ∀ p, findAct net1 p = findAct net2 p) :
    bwdUpdate succs1 pf net1 a = bwdUpdate succs2 pf net2 a := by
  rw [bwdUpdate, bwdUpdate, lfCalc_perm hs hfa]

/-- `floatUpdate` is invariant under permuting the successor list and
networks with equal `ES` lookups. -/
theorem floatUpdate_perm {succs1 succs2 : String → List String}
    {net1 net2 : List Activity} {a : Activity}
    (hs : (succs1 a.id).Perm (succs2 a.id))
    (hES : ∀ p, (findAct net1 p).map Activity.ES =
      (findAct net2 p).map Activity.ES) :
    floatUpdate succs1 net1 a = floatUpdate succs2 net2 a := by
  rw [floatUpdate, floatUpdate, ffCalc_perm hs hES]

/-- `runPasses` with its let-chain spelled out. -/
theorem runPasses_eq (net : List Activity) (order : List String) :
    runPasses net order =
      (idsOf (order.reverse.foldl
        (bwdStep (succList (order.foldl fwdStep net))
          (intMaxList ((order.foldl fwdStep net).map Activity.EF)))
        (order.foldl fwdStep net))).foldl
        (floatStep (succList (order.foldl fwdStep net)))
        (order.reverse.foldl
          (bwdStep (succList (order.foldl fwdStep net))
            (intMaxList ((order.foldl fwdStep net).map Activity.EF)))
          (order.foldl fwdStep net)) := rfl

/-- The float pass sends pointwise-equal networks (each visited in its
own key order) to pointwise-equal networks. -/
theorem float_pointwise {sc1 sc2 : String → List String}
    {netB1 netB2 : List Activity}
    (hnd1 : (idsOf netB1).Nodup) (hnd2 : (idsOf netB2).Nodup)
    (hpt : ∀ v, findAct netB1 v = findAct netB2 v)
    (hsp : ∀ w, (sc1 w).Perm (sc2 w)) :
    ∀ v, findAct ((idsOf netB1).foldl (floatStep sc1) netB1) v =
      findAct ((idsOf netB2).foldl (floatStep sc2) netB2) v := by
  intro v
  by_cases hv : v ∈ idsOf netB1
  · have hv2 : v ∈ idsOf netB2 := by
      rcases mem_idsOf_iff.mp hv with ⟨a, ha⟩
      exact mem_idsOf_iff.mpr ⟨a, by rw [← hpt v]; exact ha⟩
    rw [floatPass_char hnd1 hv, floatPass_char hnd2 hv2, hpt v]
    cases hb : findAct netB2 v with
    | none => rfl
    | some a =>
        simp only [Option.map_some']
        congr 1
        apply floatUpdate_perm (hsp a.id)
        intro p
        rw [float_preserves (P := Activity.ES) (fun _ _ => rfl)
            (idsOf netB1) netB1 p,
          float_preserves (P := Activity.ES) (fun _ _ => rfl)
            (idsOf netB2) netB2 p,
          hpt p]
  · have hv2 : v ∉ idsOf netB2 := by
      intro hv2
      rcases mem_idsOf_iff.mp hv2 with ⟨a, ha⟩
      exact hv (mem_idsOf_iff.mpr ⟨a, by rw [hpt v]; exact ha⟩)
    rw [findAct_eq_none_iff.mpr (by
        rw [idsOf_congr (float_skel (idsOf netB1) netB1)]
        exact hv),
      findAct_eq_none_iff.mpr (by
        rw [idsOf_congr (float_skel (idsOf netB2) netB2)]
        exact hv2)]

/-- The whole pass pipeline, run with the same topological order, sends
pointwise-equal networks to pointwise-equal networks. -/
theorem runPasses_pointwise {n1 n2 : List Activity} (order : List String)
    (hnd1 : (idsOf n1).Nodup) (hnd2 : (idsOf n2).Nodup)
    (hpt : ∀ v, findAct n1 v = findAct n2 v) :
    ∀ v, findAct (runPasses n1 order) v = findAct (runPasses n2 order) v := by
  have hptF : ∀ v, findAct (order.foldl fwdStep n1) v =
      findAct (order.foldl fwdStep n2) v :=
    foldl_update_pointwise (f := fwdUpdate) (g := fwdUpdate)
      (fun _ _ => rfl) (fun _ _ => rfl)
      (fun net net' a hp => by
        rw [fwdUpdate, fwdUpdate, esCalc_congr (fun p _ => hp p)])
      order n1 n2 hpt
  have hndF1 : (idsOf (order.foldl fwdStep n1)).Nodup := by
    rw [idsOf_congr (fwd_skel order n1)]
    exact hnd1
  have hndF2 : (idsOf (order.foldl fwdStep n2)).Nodup := by
    rw [idsOf_congr (fwd_skel order n2)]
    exact hnd2
  have hsp : ∀ w, (succList (order.foldl fwdStep n1) w).Perm
      (succList (order.foldl fwdStep n2) w) :=
    succList_perm_of_pointwise hndF1 hndF2 hptF
  have hpermF : (order.foldl fwdStep n1).Perm (order.foldl fwdStep n2) :=
    net_perm_of_pointwise hndF1 hndF2 hptF
  have hpf : intMaxList ((order.foldl fwdStep n1).map Activity.EF) =
      intMaxList ((order.foldl fwdStep n2).map Activity.EF) :=
    intMaxList_perm (hpermF.map _)
  have hptB : ∀ v, findAct (order.reverse.foldl
      (bwdStep (succList (order.foldl fwdStep n1))
        (intMaxList ((order.foldl fwdStep n1).map Activity.EF)))
      (order.foldl fwdStep n1)) v =
      findAct (order.reverse.foldl
      (bwdStep (succList (order.foldl fwdStep n2))
        (intMaxList ((order.foldl fwdStep n2).map Activity.EF)))
      (order.foldl fwdStep n2)) v :=
    foldl_update_pointwise
      (f := bwdUpdate (succList (order.foldl fwdStep n1))
        (intMaxList ((order.foldl fwdStep n1).map Activity.EF)))
      (g := bwdUpdate (succList (order.foldl fwdStep n2))
        (intMaxList ((order.foldl fwdStep n2).map Activity.EF)))
      (fun _ _ => rfl) (fun _ _ => rfl)
      (fun net net' a hp => by
        rw [hpf]
        exact bwdUpdate_perm (hsp a.id) hp)
      order.reverse _ _ hptF
  have hndB1 : (idsOf (order.reverse.foldl
      (bwdStep (succList (order.foldl fwdStep n1))
        (intMaxList ((order.foldl fwdStep n1).map Activity.EF)))
      (order.foldl fwdStep n1))).Nodup := by
    rw [idsOf_congr (bwd_skel order.reverse (order.foldl fwdStep n1))]
    exact hndF1
  have hndB2 : (idsOf (order.reverse.foldl
      (bwdStep (succList (order.foldl fwdStep n2))
        (intMaxList ((order.foldl fwdStep n2).map Activity.EF)))
      (order.foldl fwdStep n2))).Nodup := by
    rw [idsOf_congr (bwd_skel order.reverse (order.foldl fwdStep n2))]
    exact hndF2
  intro v
  rw [runPasses_eq n1 order, runPasses_eq n2 order]
  exact float_pointwise hndB1 hndB2 hptB hsp v

/-- Pointwise lookup equality follows from the finitary conditions:
equal lengths, duplicate-free ids, and every activity of the first
network found unchanged in the second. -/
theorem pointwise_of_sub {n1 n2 : List Activity}
    (hnd1 : (idsOf n1).Nodup) (hnd2 : (idsOf n2).Nodup)
    (hlen : n1.length = n2.length)
    (hsub : ∀ a ∈ n1, findAct n2 a.id = some a) :
    ∀ v, findAct n1 v = findAct n2 v := by
  have hperm : n1.Perm n2 := by
    have hsubp : List.Subperm n1 n2 :=
      List.Nodup.subperm (List.Nodup.of_map _ hnd1)
        (fun a ha => findAct_mem (hsub a ha))
    exact hsubp.perm_of_length_le (le_of_eq hlen.symm)
  intro v
  cases h1 : findAct n1 v with
  | some a =>
      have ha : a ∈ n1 := findAct_mem h1
      have hv : a.id = v := findAct_id h1
      rw [← hv]
      exact (hsub a ha).symm
  | none =>
      have hv1 : v ∉ idsOf n1 := findAct_eq_none_iff.mp h1
      have hv2 : v ∉ idsOf n2 := by
        intro hv2
        exact hv1 ((hperm.map Activity.id).mem_iff.mpr hv2)
      exact (findAct_eq_none_iff.mpr hv2).symm

/-- C7: two `schedule()` runs over networks equal as id-to-activity
mappings (map insertion order apart) behave identically when one
succeeds: the other succeeds too, both cache the very same topological
order, every id maps to an identical fully computed activity, and
`get_critical_path()` returns the identical ordering. -/
theorem C7_determinism (s1 s2 : CPMScheduler)
    (hnd1 : (idsOf s1.activities).Nodup)
    (hnd2 : (idsOf s2.activities).Nodup)
    (hlen : s1.activities.length = s2.activities.length)
    (hsub : ∀ a ∈ s1.activities, findAct s2.activities a.id = some a)
    (hne : s1.activities ≠ []) (hok : exceptIsOk (schedule s1).1 = true) :
    exceptIsOk (schedule s2).1 = true ∧
    (schedule s1).2.last_order = (schedule s2).2.last_order ∧
    (∀ v, findAct ((schedule s1).2.activities) v =
      findAct ((schedule s2).2.activities) v) ∧
    get_critical_path (schedule s1).2 = get_critical_path (schedule s2).2 := by
  have hpt : ∀ v, findAct s1.activities v = findAct s2.activities v :=
    pointwise_of_sub hnd1 hnd2 hlen hsub
  have hperm : s1.activities.Perm s2.activities :=
    net_perm_of_pointwise hnd1 hnd2 hpt
  have hne2 : s2.activities ≠ [] := by
    intro he
    rw [he] at hperm
    exact hne hperm.eq_nil
  cases herr1 : refErrorOf s1.activities with
  | some pr =>
      obtain ⟨aid, pid⟩ := pr
      rw [schedule_eq_refError hne herr1] at hok
      cases hok
  | none =>
      have hvalid1 : validNet s1.activities :=
        (refErrorOf_eq_none_iff _).mp herr1
      have hvalid2 : validNet s2.activities := by
        intro a ha p hp
        have ha1 : a ∈ s1.activities := hperm.mem_iff.mpr ha
        rcases mem_idsOf_iff.mp (hvalid1 a ha1 p hp) with ⟨b, hb⟩
        refine mem_idsOf_iff.mpr ⟨b, ?_⟩
        rw [← hpt p]
        exact hb
      have herr2 : refErrorOf s2.activities = none :=
        (refErrorOf_eq_none_iff _).mpr hvalid2
      have hko : kahnOrder s1.activities = kahnOrder s2.activities :=
        kahnOrder_ext hperm hnd1 hnd2 hpt
      by_cases hlen1 : (kahnOrder (resetNet s1.activities)).length =
          (resetNet s1.activities).length
      · have hlen2 : (kahnOrder (resetNet s2.activities)).length =
            (resetNet s2.activities).length := by
          rw [kahnOrder_resetNet, resetNet_length, ← hko, ← hperm.length_eq,
            ← resetNet_length s1.activities, ← kahnOrder_resetNet]
          exact hlen1
        have hordeq : kahnOrder (resetNet s1.activities) =
            kahnOrder (resetNet s2.activities) := by
          rw [kahnOrder_resetNet, kahnOrder_resetNet, hko]
        have hnd1r : (idsOf (resetNet s1.activities)).Nodup := by
          rw [idsOf_resetNet]
          exact hnd1
        have hnd2r : (idsOf (resetNet s2.activities)).Nodup := by
          rw [idsOf_resetNet]
          exact hnd2
        have hptr : ∀ v, findAct (resetNet s1.activities) v =
            findAct (resetNet s2.activities) v := by
          intro v
          rw [findAct_resetNet, findAct_resetNet, hpt v]
        have hfinal : ∀ v,
            findAct (runPasses (resetNet s1.activities)
              (kahnOrder (resetNet s1.activities))) v =
            findAct (runPasses (resetNet s2.activities)
              (kahnOrder (resetNet s2.activities))) v := by
          intro v
          rw [hordeq]
          exact runPasses_pointwise _ hnd1r hnd2r hptr v
        rw [schedule_eq_ok hne herr1 hlen1, schedule_eq_ok hne2 herr2 hlen2]
        refine ⟨rfl, hordeq, hfinal, ?_⟩
        rw [get_critical_path, get_critical_path]
        have hone : ¬ ((kahnOrder (resetNet s1.activities)).isEmpty
            = true) := by
          rw [List.isEmpty_iff]
          intro he
          rw [he, resetNet_length] at hlen1
          exact hne (List.eq_nil_of_length_eq_zero (by simpa using hlen1.symm))
        have hone2 : ¬ ((kahnOrder (resetNet s2.activities)).isEmpty
            = true) := by
          rw [← hordeq]
          exact hone
        have key : ∀ (o : List String) (A B : List Activity),
            (∀ u, findAct A u = findAct B u) →
            o.filter (fun aid =>
              ((findAct A aid).map Activity.is_critical).getD false) =
            o.filter (fun aid =>
              ((findAct B aid).map Activity.is_critical).getD false) := by
          intro o A B h
          apply List.filter_congr
          intro u _
          rw [h u]
        dsimp only
        rw [if_neg hone, if_neg hone2]
        calc (kahnOrder (resetNet s1.activities)).filter (fun aid =>
              ((findAct (runPasses (resetNet s1.activities)
                (kahnOrder (resetNet s1.activities))) aid).map
                  Activity.is_critical).getD false)
            = (kahnOrder (resetNet s1.activities)).filter (fun aid =>
              ((findAct (runPasses (resetNet s2.activities)
                (kahnOrder (resetNet s2.activities))) aid).map
                  Activity.is_critical).getD false) :=
              key _ _ _ hfinal
          _ = (kahnOrder (resetNet s2.activities)).filter (fun aid =>
              ((findAct (runPasses (resetNet s2.activities)
                (kahnOrder (resetNet s2.activities))) aid).map
                  Activity.is_critical).getD false) := by
              rw [hordeq]
      · rw [schedule_eq_cycle hne herr1 hlen1] at hok
        cases hok

/-- Witness for C7 comparing the example network in two insertion
orders. -/
theorem C7_determinism_witness :
    (idsOf exS.activities).Nodup ∧ (idsOf exSPerm.activities).Nodup ∧
    exS.activities.length = exSPerm.activities.length ∧
    (∀ a ∈ exS.activities, findAct exSPerm.activities a.id = some a) ∧
    exS.activities ≠ [] ∧ exceptIsOk (schedule exS).1 = true ∧
    (exceptIsOk (schedule exSPerm).1 = true ∧
      (schedule exS).2.last_order = (schedule exSPerm).2.last_order ∧
      (∀ v, findAct ((schedule exS).2.activities) v =
        findAct ((schedule exSPerm).2.activities) v) ∧
      get_critical_path (schedule exS).2 =
        get_critical_path (schedule exSPerm).2) :=
  ⟨by decide, by decide, by decide, by decide, by decide, by decide,
    C7_determinism exS exSPerm (by decide) (by decide) (by decide)
      (by decide) (by decide) (by decide)⟩

end CPM
